import Mathlib

/-!
# Budget Grocery List — verification of the list/state model

Shallow embedding of the state logic of `src/App.jsx` (a single React
component).  Items are records of a name, a pantry flag and a raw price
string; every operation of the List Manager, Budget Tracker, Link
Generator, Share Codec, Recipe Importer and Voice Importer is translated
into a pure Lean function.  JavaScript numbers are modelled as rationals
(ℚ); platform builtins (`parseFloat`, `encodeURIComponent`,
`decodeURIComponent`, `URLSearchParams`, `JSON.stringify`/`JSON.parse`)
are modelled by executable Lean functions faithful to their standard
behaviour on the inputs this program feeds them.
-/

namespace Grocery

/-- One grocery-list entry, as created by the add operations of
`App.jsx`: `{ name, inPantry, estimatedPrice }`.  `estimatedPrice` is the
raw text of the price input (stored verbatim by `updatePrice`). -/
structure Item where
  name : String
  inPantry : Bool
  estimatedPrice : String
deriving Repr, DecidableEq

/-! ### JavaScript string primitives

`String.prototype.trim`, `String.prototype.toLowerCase` (ASCII range)
and `String.prototype.split(',')`, modelled directly on character lists
so that every operation is structurally recursive and computable by the
kernel. -/

/-- JavaScript WhiteSpace / LineTerminator characters (the common
ones). -/
def jsWhitespace (c : Char) : Bool :=
  c = ' ' ∨ c = '\t' ∨ c = '\n' ∨ c = '\r' ∨ c = '\x0b' ∨ c = '\x0c'

/-- `String.prototype.trim`: strip leading and trailing whitespace. -/
def jsTrim (s : String) : String :=
  ⟨((s.data.dropWhile jsWhitespace).reverse.dropWhile jsWhitespace).reverse⟩

/-- Lower-casing of one character (ASCII range, which is all the
duplicate check and transcript normalization rely on). -/
def lowerChar (c : Char) : Char :=
  if 'A' ≤ c ∧ c ≤ 'Z' then Char.ofNat (c.toNat + 32) else c

/-- `String.prototype.toLowerCase`. -/
def jsToLower (s : String) : String := ⟨s.data.map lowerChar⟩

/-- `String.prototype.split(',')` on a character list: the comma-free
groups, with an (empty) group on each side of every comma. -/
def splitCommaChars : List Char → List (List Char)
  | [] => [[]]
  | c :: rest =>
    match splitCommaChars rest with
    | [] => [[]]
    | g :: gs => if c = ',' then [] :: g :: gs else (c :: g) :: gs

/-- `String.prototype.split(',')`. -/
def jsSplitComma (s : String) : List String :=
  (splitCommaChars s.data).map (fun l => ⟨l⟩)

/-- The duplicate test of `addItem` / `addMultipleItems`:
`items.find(i => i.name.toLowerCase() === name.toLowerCase())`. -/
def findLowerMatch (items : List Item) (name : String) : Option Item :=
  items.find? (fun i => jsToLower i.name == jsToLower name)

/-- `addItem` (App.jsx lines 65–71), restricted to its effect on the item
list: trim the input; if the trimmed name is non-empty and no
case-insensitive duplicate exists, append `{name, inPantry:false,
estimatedPrice:''}`; otherwise leave the list unchanged.  (The
input-buffer clearing concerns a separate piece of UI state.) -/
def addItem (items : List Item) (itemName : String) : List Item :=
  let trimmed := jsTrim itemName
  if trimmed ≠ "" ∧ (findLowerMatch items trimmed).isSome = false then
    items ++ [{ name := trimmed, inPantry := false, estimatedPrice := "" }]
  else
    items

/-- The survivors of a batch in `addMultipleItems` (App.jsx lines 74–78):
trim each candidate, keep those that are non-empty and do not
case-insensitively match a name already in `items` (the list state at
call time — the filter does not look at other members of the batch). -/
def batchSurvivors (items : List Item) (itemNames : List String) : List Item :=
  ((itemNames.map jsTrim).filter
      (fun name => name ≠ "" ∧ (findLowerMatch items name).isSome = false)).map
    (fun name => { name := name, inPantry := false, estimatedPrice := "" })

/-- `addMultipleItems` (App.jsx lines 74–84): append the batch survivors
and emit a count notification; if no candidate survives, do nothing and
emit no notification.  Returns the new list and the optional toast
message. -/
def addMultipleItems (items : List Item) (itemNames : List String) :
    List Item × Option String :=
  let newItems := batchSurvivors items itemNames
  if newItems.length > 0 then
    (items ++ newItems,
      some ("Added " ++ toString newItems.length ++ " item" ++
        (if newItems.length > 1 then "s" else "") ++ "!"))
  else
    (items, none)

/-- JavaScript `Array.prototype.filter` with the element index made
available to the predicate, as used by `removeItem`
(`prev.filter((_, i) => i !== index)`).  `n` is the index of the head. -/
def filterIdx (p : Item → Nat → Bool) : List Item → Nat → List Item
  | [], _ => []
  | x :: xs, n =>
    if p x n then x :: filterIdx p xs (n + 1) else filterIdx p xs (n + 1)

/-- JavaScript `Array.prototype.map` with the element index, as used by
`togglePantry` and `updatePrice`. -/
def mapIdx (f : Item → Nat → Item) : List Item → Nat → List Item
  | [], _ => []
  | x :: xs, n => f x n :: mapIdx f xs (n + 1)

/-- `removeItem(index)` (App.jsx lines 94–96):
`setItems(prev => prev.filter((_, i) => i !== index))`. -/
def removeItem (items : List Item) (index : Nat) : List Item :=
  filterIdx (fun _ i => i ≠ index) items 0

/-- `togglePantry(index)` (App.jsx lines 99–103): flip `inPantry` at the
given position, leave everything else alone. -/
def togglePantry (items : List Item) (index : Nat) : List Item :=
  mapIdx (fun item i =>
    if i = index then { item with inPantry := !item.inPantry } else item)
    items 0

/-- `updatePrice(index, price)` (App.jsx lines 106–110): store the raw
price text verbatim at the given position. -/
def updatePrice (items : List Item) (index : Nat) (price : String) : List Item :=
  mapIdx (fun item i =>
    if i = index then { item with estimatedPrice := price } else item)
    items 0

/-- `clearAll` (App.jsx lines 146–149): empty the list and emit a fixed
notification. -/
def clearAll : List Item × String := ([], "List cleared!")

/-! ## Permissive number parsing (`parseFloat`)

JavaScript numbers are modelled as rationals.  `parseFloatQ` models the
builtin `parseFloat` on finite decimal literals: skip leading
whitespace, read an optional sign, then the longest prefix of the form
`digits [. digits] [e|E [sign] digits]` or `. digits …`; return `none`
(JavaScript `NaN`) when no digit is found.  (The `Infinity` literal is
outside the model; prices and budgets are entered through `type=number`
inputs.) -/

/-- Value of a decimal digit character. -/
def digitVal (c : Char) : Nat := c.toNat - '0'.toNat

/-- Accumulate a digit run left-to-right: `(123, 3)` for `['1','2','3']`. -/
def digitsVal (l : List Char) : Nat × Nat :=
  l.foldl (fun acc c => (acc.1 * 10 + digitVal c, acc.2 + 1)) (0, 0)

/-- The (unsigned) digit run at the head of `l`, as the exponent value;
an empty run means the exponent marker is ignored (`parseFloat` takes
the longest valid prefix, so `1e` parses as `1`). -/
def expDigitsVal (l : List Char) : Int :=
  match l.takeWhile Char.isDigit with
  | [] => 0
  | ds => Int.ofNat (digitsVal ds).1

/-- The exponent after the marker, with an optional sign. -/
def signedExp (l : List Char) : Int :=
  match l with
  | '+' :: ds => expDigitsVal ds
  | '-' :: ds => -(expDigitsVal ds)
  | ds => expDigitsVal ds

/-- Parse the exponent part `e|E [sign] digits`; `parseFloat` ignores an
exponent marker not followed by at least one digit. -/
def parseExponent (l : List Char) : Int :=
  match l with
  | 'e' :: rest => signedExp rest
  | 'E' :: rest => signedExp rest
  | _ => 0

/-- The numeric value of an unsigned mantissa-with-exponent prefix:
integer digits `ip`, fractional digits `fp`, decimal exponent `e`. -/
def mantissaVal (ip fp : List Char) (e : Int) : ℚ :=
  (((digitsVal ip).1 : ℚ) + ((digitsVal fp).1 : ℚ) / ((10 : ℚ) ^ (digitsVal fp).2))
    * (10 : ℚ) ^ e

/-- The unsigned mantissa-and-exponent prefix at the head of `l`:
`digits [. digits] [exp]` or `. digits [exp]`; `none` when no digit
starts the number (JavaScript `NaN`). -/
def parseUnsigned (l : List Char) : Option ℚ :=
  let ip := l.takeWhile Char.isDigit
  match ip, l.dropWhile Char.isDigit with
  | [], '.' :: r =>
    match r.takeWhile Char.isDigit with
    | [] => none
    | fp => some (mantissaVal [] fp (parseExponent (r.dropWhile Char.isDigit)))
  | [], _ => none
  | _, '.' :: r =>
    some (mantissaVal ip (r.takeWhile Char.isDigit)
      (parseExponent (r.dropWhile Char.isDigit)))
  | _, r => some (mantissaVal ip [] (parseExponent r))

/-- `parseFloat` on a list of characters; `none` is JavaScript `NaN`. -/
def parseFloatChars (l : List Char) : Option ℚ :=
  match l.dropWhile jsWhitespace with
  | '-' :: r => (parseUnsigned r).map (fun v => -v)
  | '+' :: r => parseUnsigned r
  | r => parseUnsigned r

/-- `parseFloat` on a string. -/
def parseFloatQ (s : String) : Option ℚ := parseFloatChars s.data

/-- The idiom `parseFloat(x) || 0` of App.jsx: `NaN` (and `0` itself,
including a would-be `-0`) collapse to `0`. -/
def parseFloatOrZero (s : String) : ℚ :=
  match parseFloatQ s with
  | none => 0
  | some v => if v = 0 then 0 else v

/-! ## Derived budget values (App.jsx lines 40–46) -/

/-- `estimatedTotal`: `items.filter(i => !i.inPantry).reduce((sum, i) =>
sum + (parseFloat(i.estimatedPrice) || 0), 0)`. -/
def estimatedTotal (items : List Item) : ℚ :=
  ((items.filter (fun item => !item.inPantry)).foldl
    (fun sum item => sum + parseFloatOrZero item.estimatedPrice) 0)

/-- `budgetNum = parseFloat(budget) || 0`. -/
def budgetNum (budget : String) : ℚ := parseFloatOrZero budget

/-- `isOverBudget = budgetNum > 0 && estimatedTotal > budgetNum`. -/
def isOverBudget (items : List Item) (budget : String) : Bool :=
  decide (budgetNum budget > 0) && decide (estimatedTotal items > budgetNum budget)

/-- `budgetProgress = budgetNum > 0 ?
Math.min((estimatedTotal / budgetNum) * 100, 100) : 0`. -/
def budgetProgress (items : List Item) (budget : String) : ℚ :=
  if budgetNum budget > 0 then
    min (estimatedTotal items / budgetNum budget * 100) 100
  else 0

/-! ## `encodeURIComponent` / `decodeURIComponent`

The ECMAScript percent-codec, modelled on Lean strings.  A character is
left verbatim iff it is in `encodeURIComponent`'s unreserved set
(`A–Z a–z 0–9 - _ . ! ~ * ' ( )`); every other character is written as
the `%HH` (uppercase hex) encoding of each of its UTF-8 bytes. -/

/-- The characters `encodeURIComponent` leaves unescaped. -/
def uriUnreserved (c : Char) : Bool :=
  (('A' ≤ c ∧ c ≤ 'Z') ∨ ('a' ≤ c ∧ c ≤ 'z') ∨ ('0' ≤ c ∧ c ≤ '9') ∨
    c = '-' ∨ c = '_' ∨ c = '.' ∨ c = '!' ∨ c = '~' ∨ c = '*' ∨
    c = '\x27' ∨ c = '(' ∨ c = ')')

/-- The UTF-8 bytes of a character, from its code point. -/
def utf8Bytes (c : Char) : List Nat :=
  let n := c.toNat
  if n < 0x80 then [n]
  else if n < 0x800 then [0xC0 + n / 64, 0x80 + n % 64]
  else if n < 0x10000 then
    [0xE0 + n / 4096, 0x80 + n / 64 % 64, 0x80 + n % 64]
  else
    [0xF0 + n / 262144, 0x80 + n / 4096 % 64, 0x80 + n / 64 % 64, 0x80 + n % 64]

/-- Uppercase hexadecimal digit for a value below 16. -/
def hexChar (n : Nat) : Char :=
  if n < 10 then Char.ofNat ('0'.toNat + n) else Char.ofNat ('A'.toNat + n - 10)

/-- `%HH` escape of one byte. -/
def percentByte (b : Nat) : List Char := ['%', hexChar (b / 16), hexChar (b % 16)]

/-- `encodeURIComponent` on a character list. -/
def encodeURIChars (l : List Char) : List Char :=
  l.flatMap (fun c =>
    if uriUnreserved c then [c] else (utf8Bytes c).flatMap percentByte)

/-- `encodeURIComponent`. -/
def encodeURIComponent (s : String) : String := ⟨encodeURIChars s.data⟩

/-! ## Retailer search links (App.jsx lines 49–62) -/

/-- `generateAmazonUrl(itemName)`. -/
def generateAmazonUrl (itemName : String) : String :=
  "https://www.amazon.com/s?k=" ++ encodeURIComponent itemName ++ "&s=price-asc-rank"

/-- `generateWalmartUrl(itemName)`. -/
def generateWalmartUrl (itemName : String) : String :=
  "https://www.walmart.com/search?q=" ++ encodeURIComponent itemName ++ "&sort=price_low"

/-- `generateTargetUrl(itemName)`. -/
def generateTargetUrl (itemName : String) : String :=
  "https://www.target.com/s?searchTerm=" ++ encodeURIComponent itemName ++ "&sortBy=PriceLow"

/-! ## Voice transcript normalization (App.jsx lines 223–235)

`transcript.toLowerCase().replace(/\band\b/g, ',').replace(/\bcomma\b/g,
',').split(',').map(s => s.trim()).filter(Boolean)`.  The regex `\bw\b`
(for a word `w` made of word characters) matches an occurrence of `w`
not adjacent to another word character; `replace(..., ',')` rewrites the
non-overlapping matches left to right. -/

/-- Regex word character: `[A-Za-z0-9_]`. -/
def isWordChar (c : Char) : Bool :=
  (('A' ≤ c ∧ c ≤ 'Z') ∨ ('a' ≤ c ∧ c ≤ 'z') ∨ ('0' ≤ c ∧ c ≤ '9') ∨ c = '_')

/-- Does the word `w` match at the head of `l` with a word boundary on
the right (end of string or a non-word character)? -/
def wordMatchesAt (w l : List Char) : Bool :=
  w.isPrefixOf l &&
    (match l.drop w.length with
     | [] => true
     | c :: _ => !isWordChar c)

/-- One left-to-right pass of `replace(/\bw\b/g, ',')`, fuel-indexed so
that it is structurally recursive (the fuel is an upper bound on the
input length).  `prevIsWord` records whether the character just before
the current position is a word character (the left boundary test). -/
def replaceWordGo (w : List Char) : Nat → Bool → List Char → List Char
  | 0, _, l => l
  | _ + 1, _, [] => []
  | fuel + 1, prevIsWord, c :: rest =>
    if !prevIsWord && wordMatchesAt w (c :: rest) then
      ',' :: replaceWordGo w fuel true ((c :: rest).drop w.length)
    else
      c :: replaceWordGo w fuel (isWordChar c) rest

/-- `replace(/\bw\b/g, ',')` for a word `w` of word characters. -/
def replaceWord (w : String) (s : String) : String :=
  ⟨replaceWordGo w.data s.data.length false s.data⟩

/-- The voice-transcript pipeline of `recognition.onresult`: lower-case,
turn the standalone words `and` and `comma` into commas, split on
commas, trim the fragments and drop the empty ones. -/
def voiceItems (transcript : String) : List String :=
  (((jsSplitComma (replaceWord "comma"
      (replaceWord "and" (jsToLower transcript)))).map jsTrim).filter
    (fun s => s ≠ ""))

/-! ## JSON (`JSON.stringify` / `JSON.parse`)

The share codec serializes the item array with `JSON.stringify` and
restores it with `JSON.parse`; the recipe importer parses the bracketed
slice of the model response with `JSON.parse`.  `JSON.stringify` is
modelled exactly on the payload shapes this program produces (arrays of
`Item` records with string and boolean fields, keys in declaration
order); `JSON.parse` is modelled on the grammar of those payloads —
strings with the standard escapes, booleans, arrays of strings and
arrays of item objects, with inter-token whitespace. -/

/-- The `{` character (written by code point). -/
def lbrace : Char := Char.ofNat 123

/-- The `}` character (written by code point). -/
def rbrace : Char := Char.ofNat 125

/-- Lowercase hexadecimal digit for a value below 16. -/
def hexCharLower (n : Nat) : Char :=
  if n < 10 then Char.ofNat ('0'.toNat + n) else Char.ofNat ('a'.toNat + n - 10)

/-- Value of a hexadecimal digit character. -/
def hexVal (c : Char) : Option Nat :=
  if '0' ≤ c ∧ c ≤ '9' then some (c.toNat - '0'.toNat)
  else if 'a' ≤ c ∧ c ≤ 'f' then some (c.toNat - 'a'.toNat + 10)
  else if 'A' ≤ c ∧ c ≤ 'F' then some (c.toNat - 'A'.toNat + 10)
  else none

/-- `JSON.stringify`'s escaping of one character inside a string
literal. -/
def jsonEscapeChar (c : Char) : List Char :=
  if c = '"' then ['\\', '"']
  else if c = '\\' then ['\\', '\\']
  else if c = '\x08' then ['\\', 'b']
  else if c = '\t' then ['\\', 't']
  else if c = '\n' then ['\\', 'n']
  else if c = '\x0c' then ['\\', 'f']
  else if c = '\r' then ['\\', 'r']
  else if c.toNat < 32 then
    ['\\', 'u', '0', '0', hexCharLower (c.toNat / 16), hexCharLower (c.toNat % 16)]
  else [c]

/-- A JSON string literal (both quotes included). -/
def jsonQuote (s : String) : List Char :=
  '"' :: (s.data.flatMap jsonEscapeChar) ++ ['"']

/-- `JSON.stringify` of one item: keys in declaration order, as emitted
for the objects this app builds. -/
def stringifyItem (it : Item) : List Char :=
  lbrace :: "\"name\":".data ++ jsonQuote it.name ++ ",\"inPantry\":".data ++
    (if it.inPantry then "true".data else "false".data) ++
    ",\"estimatedPrice\":".data ++ jsonQuote it.estimatedPrice ++ [rbrace]

/-- The comma-separated element list inside `JSON.stringify(items)`. -/
def stringifyItemsInner : List Item → List Char
  | [] => []
  | [it] => stringifyItem it
  | it :: rest => stringifyItem it ++ ',' :: stringifyItemsInner rest

/-- `JSON.stringify(items)`. -/
def stringifyItems (items : List Item) : List Char :=
  '[' :: stringifyItemsInner items ++ [']']

/-- JSON inter-token whitespace. -/
def jsonWs (c : Char) : Bool :=
  c = ' ' ∨ c = '\t' ∨ c = '\n' ∨ c = '\r'

/-- One JSON escape sequence after the backslash: the decoded character
and the remainder.  (`\uXXXX` is decoded as a single code point;
surrogate-pair recombination is not modelled — none of the payloads
proved about contain such escapes.) -/
def unescapeAt : List Char → Option (Char × List Char)
  | '"' :: r => some ('"', r)
  | '\\' :: r => some ('\\', r)
  | '/' :: r => some ('/', r)
  | 'b' :: r => some ('\x08', r)
  | 'f' :: r => some ('\x0c', r)
  | 'n' :: r => some ('\n', r)
  | 'r' :: r => some ('\r', r)
  | 't' :: r => some ('\t', r)
  | 'u' :: h₁ :: h₂ :: h₃ :: h₄ :: r =>
    match hexVal h₁, hexVal h₂, hexVal h₃, hexVal h₄ with
    | some a, some b, some c, some d =>
      some (Char.ofNat (a * 4096 + b * 256 + c * 16 + d), r)
    | _, _, _, _ => none
  | _ => none

/-- Body of a JSON string literal after the opening quote: the decoded
characters plus the remainder after the closing quote.  Handles the
standard escapes; a raw control character or an unterminated literal is
an error.  Fuel-indexed (one unit per decoded character) to stay
structurally recursive. -/
def parseJsonStringGo : Nat → List Char → Option (List Char × List Char)
  | 0, _ => none
  | _ + 1, [] => none
  | fuel + 1, c :: rest =>
    if c = '"' then some ([], rest)
    else if c = '\\' then
      match unescapeAt rest with
      | some (ch, r) => (parseJsonStringGo fuel r).map (fun p => (ch :: p.1, p.2))
      | none => none
    else if c.toNat < 32 then none
    else (parseJsonStringGo fuel rest).map (fun p => (c :: p.1, p.2))

/-- Body of a JSON string literal after the opening quote. -/
def parseJsonStringBody (l : List Char) : Option (List Char × List Char) :=
  parseJsonStringGo (l.length + 1) l

/-- Skip whitespace, then require the exact character `c`. -/
def expectChar (c : Char) (l : List Char) : Option (List Char) :=
  match l.dropWhile jsonWs with
  | d :: r => if d = c then some r else none
  | [] => none

/-- Skip whitespace, then parse a JSON string literal. -/
def parseQuoted (l : List Char) : Option (String × List Char) :=
  match l.dropWhile jsonWs with
  | '"' :: rest => (parseJsonStringBody rest).map (fun p => (⟨p.1⟩, p.2))
  | _ => none

/-- Parse an object key equal to `key`, with its trailing colon. -/
def parseKey (key : String) (l : List Char) : Option (List Char) :=
  match parseQuoted l with
  | some (k, rest) => if k = key then expectChar ':' rest else none
  | none => none

/-- Parse a JSON boolean. -/
def parseBool : List Char → Option (Bool × List Char)
  | 't' :: 'r' :: 'u' :: 'e' :: r => some (true, r)
  | 'f' :: 'a' :: 'l' :: 's' :: 'e' :: r => some (false, r)
  | _ => none

/-- Parse one item object
`{"name": string, "inPantry": bool, "estimatedPrice": string}`. -/
def parseItemObj (l : List Char) : Option (Item × List Char) := do
  let r ← expectChar lbrace l
  let r ← parseKey "name" r
  let (name, r) ← parseQuoted r
  let r ← expectChar ',' r
  let r ← parseKey "inPantry" r
  let (b, r) ← parseBool (r.dropWhile jsonWs)
  let r ← expectChar ',' r
  let r ← parseKey "estimatedPrice" r
  let (price, r) ← parseQuoted r
  let r ← expectChar rbrace r
  pure (Item.mk name b price, r)

/-- Parse the comma-separated item objects of a non-empty array, up to
and including the closing bracket.  The fuel is an upper bound on the
number of elements. -/
def parseItemElems : Nat → List Char → Option (List Item × List Char)
  | 0, _ => none
  | fuel + 1, l => do
    let (it, r) ← parseItemObj l
    match r.dropWhile jsonWs with
    | ',' :: r' =>
      let (its, r'') ← parseItemElems fuel r'
      pure (it :: its, r'')
    | c :: r' => if c = ']' then pure ([it], r') else none
    | [] => none

/-- `JSON.parse` on an array of item objects: the whole input must be
one array (with optional surrounding whitespace). -/
def parseItemsArray (l : List Char) : Option (List Item) :=
  match l.dropWhile jsonWs with
  | '[' :: rest =>
    match rest.dropWhile jsonWs with
    | c :: r =>
      if c = ']' then (if r.dropWhile jsonWs = [] then some [] else none)
      else
        match parseItemElems (rest.length + 1) rest with
        | some (its, r') => if r'.dropWhile jsonWs = [] then some its else none
        | none => none
    | [] => none
  | _ => none

/-- Parse the comma-separated string elements of a non-empty array, up
to and including the closing bracket. -/
def parseStringElems : Nat → List Char → Option (List String × List Char)
  | 0, _ => none
  | fuel + 1, l => do
    let (s, r) ← parseQuoted l
    match r.dropWhile jsonWs with
    | ',' :: r' =>
      let (ss, r'') ← parseStringElems fuel r'
      pure (s :: ss, r'')
    | c :: r' => if c = ']' then pure ([s], r') else none
    | [] => none

/-- `JSON.parse` on an array of strings (the payload shape the recipe
importer asks the language model for).  A syntactically valid JSON value
of any other shape would equally lead to the importer's failure path: a
non-array makes `addMultipleItems(ingredients)` throw on `.map`, and a
non-string element throws on `.trim()`, both caught by the same
`catch`. -/
def parseStringArray (l : List Char) : Option (List String) :=
  match l.dropWhile jsonWs with
  | '[' :: rest =>
    match rest.dropWhile jsonWs with
    | c :: r =>
      if c = ']' then (if r.dropWhile jsonWs = [] then some [] else none)
      else
        match parseStringElems (rest.length + 1) rest with
        | some (ss, r') => if r'.dropWhile jsonWs = [] then some ss else none
        | none => none
    | [] => none
  | _ => none

/-! ## Recipe importer (App.jsx lines 161–202) -/

/-- The greedy match `text.match(/\[[\s\S]*\])/`: the span from the
first `[` to the last `]`, provided some `]` comes after the first `[`;
otherwise no match. -/
def extractBracket : List Char → Option (List Char)
  | [] => none
  | c :: rest =>
    if c = '[' ∧ rest.contains ']' then
      some ('[' :: (rest.reverse.dropWhile (fun d => d ≠ ']')).reverse)
    else extractBracket rest

/-- The externally observable outcome of the one `fetch` of
`importRecipe`: either the request or the `response.json()` decoding
rejects (`networkError`), or it yields a response whose extracted
candidate text is `text` (the code's
`data.candidates?.[0]?.content?.parts?.[0]?.text || ''`, so a response
without that field gives `text = ""`). -/
inductive ImportOutcome where
  | networkError
  | ok (text : String)

/-- The component state touched by `importRecipe`, after the call
settles. -/
structure ImportResult where
  items : List Item
  notification : Option String
  isImporting : Bool
  recipeUrl : String
deriving Repr, DecidableEq

/-- `importRecipe` (App.jsx lines 161–202), with the initial `items` and
`recipeUrl` state, the presence of the API key, and the fetch outcome as
inputs.  An empty (after trim) URL returns before touching anything; the
`finally` block otherwise clears the importing flag and the URL buffer;
the `catch` branch reports the generic failure notification; a response
text without a bracketed array silently does nothing; a parsed array is
fed to `addMultipleItems`. -/
def importRecipe (items : List Item) (recipeUrl : String) (hasKey : Bool)
    (outcome : ImportOutcome) : ImportResult :=
  if jsTrim recipeUrl = "" then
    ⟨items, none, false, recipeUrl⟩
  else if hasKey then
    match outcome with
    | .networkError => ⟨items, some "Failed to import recipe", false, ""⟩
    | .ok text =>
      match extractBracket text.data with
      | none => ⟨items, none, false, ""⟩
      | some slice =>
        match parseStringArray slice with
        | none => ⟨items, some "Failed to import recipe", false, ""⟩
        | some ingredients =>
          let step := addMultipleItems items ingredients
          ⟨step.1, step.2, false, ""⟩
  else
    ⟨items, some "Add VITE_GEMINI_API_KEY to .env for recipe import", false, ""⟩

/-- Case-insensitive uniqueness of the item names: the invariant of §3 of
the specification. -/
def NamesCIUnique (items : List Item) : Prop :=
  List.Pairwise (fun a b => jsToLower a.name ≠ jsToLower b.name) items

/-- `sub` occurs contiguously inside `s`. -/
def containsSub (sub s : String) : Prop :=
  ∃ pre post : List Char, s.data = pre ++ sub.data ++ post

/-! ## Share codec (App.jsx lines 152–158 and 20–37)

Encoding builds `origin + pathname + "?items=" +
encodeURIComponent(JSON.stringify(items))` and, when the budget string
is truthy, `"&budget=" + budget` (the budget is spliced in raw).
Decoding (the mount effect) reads the parameters back through
`URLSearchParams` — which already percent-decodes — and then applies
`decodeURIComponent` and `JSON.parse` to the `items` value, adopting the
`budget` value verbatim.  Decoding failures are caught and leave the
default state. -/

/-- A `%HH` escape at the head of the input: its byte value and the
remainder. -/
def percentByteAt : List Char → Option (Nat × List Char)
  | '%' :: a :: b :: r =>
    match hexVal a, hexVal b with
    | some x, some y => some (x * 16 + y, r)
    | _, _ => none
  | _ => none

/-- UTF-8 continuation byte. -/
def isCont (b : Nat) : Bool := 0x80 ≤ b ∧ b ≤ 0xBF

/-- Decode the continuation escapes of a multi-byte UTF-8 sequence whose
lead byte `b` (≥ 0x80) has just been read; rejects overlong encodings,
surrogates and out-of-range code points, as the ECMAScript `Decode`
algorithm does. -/
def utf8Tail (b : Nat) (r : List Char) : Option (Char × List Char) :=
  if 0xC2 ≤ b ∧ b ≤ 0xDF then
    match percentByteAt r with
    | some (b₂, r₂) =>
      if isCont b₂ then some (Char.ofNat ((b - 0xC0) * 64 + (b₂ - 0x80)), r₂)
      else none
    | none => none
  else if 0xE0 ≤ b ∧ b ≤ 0xEF then
    match percentByteAt r with
    | some (b₂, r₂) =>
      match percentByteAt r₂ with
      | some (b₃, r₃) =>
        let n := (b - 0xE0) * 4096 + (b₂ - 0x80) * 64 + (b₃ - 0x80)
        if isCont b₂ ∧ isCont b₃ ∧ 0x800 ≤ n ∧ ¬(0xD800 ≤ n ∧ n ≤ 0xDFFF) then
          some (Char.ofNat n, r₃)
        else none
      | none => none
    | none => none
  else if 0xF0 ≤ b ∧ b ≤ 0xF4 then
    match percentByteAt r with
    | some (b₂, r₂) =>
      match percentByteAt r₂ with
      | some (b₃, r₃) =>
        match percentByteAt r₃ with
        | some (b₄, r₄) =>
          let n := (b - 0xF0) * 262144 + (b₂ - 0x80) * 4096 +
            (b₃ - 0x80) * 64 + (b₄ - 0x80)
          if isCont b₂ ∧ isCont b₃ ∧ isCont b₄ ∧ 0x10000 ≤ n ∧ n ≤ 0x10FFFF then
            some (Char.ofNat n, r₄)
          else none
        | none => none
      | none => none
    | none => none
  else none

/-- The ECMAScript `decodeURIComponent` scan: literal characters pass
through; a `%` must begin a valid percent-escaped UTF-8 sequence or the
whole decode throws (`none`).  Fuel-indexed (one unit per decoded
character) to stay structurally recursive. -/
def decodeURIGo : Nat → List Char → Option (List Char)
  | 0, _ => none
  | _ + 1, [] => some []
  | fuel + 1, c :: rest =>
    if c = '%' then
      match percentByteAt (c :: rest) with
      | none => none
      | some (b, r) =>
        if b < 0x80 then (decodeURIGo fuel r).map (Char.ofNat b :: ·)
        else
          match utf8Tail b r with
          | some (ch, r') => (decodeURIGo fuel r').map (ch :: ·)
          | none => none
    else (decodeURIGo fuel rest).map (c :: ·)

/-- `decodeURIComponent`; `none` models the thrown `URIError`. -/
def decodeURIComponentQ (s : String) : Option String :=
  (decodeURIGo (s.data.length + 1) s.data).map (fun l => ⟨l⟩)

/-- The `application/x-www-form-urlencoded` value decoding used by
`URLSearchParams`: `+` becomes a space, a valid percent-escaped UTF-8
sequence is decoded, and — unlike `decodeURIComponent` — anything
malformed is kept (a stray `%` stays literal, an invalid byte sequence
becomes U+FFFD) instead of throwing. -/
def urlDecodeGo : Nat → List Char → List Char
  | 0, l => l
  | _ + 1, [] => []
  | fuel + 1, c :: rest =>
    if c = '+' then ' ' :: urlDecodeGo fuel rest
    else if c = '%' then
      match percentByteAt (c :: rest) with
      | none => c :: urlDecodeGo fuel rest
      | some (b, r) =>
        if b < 0x80 then Char.ofNat b :: urlDecodeGo fuel r
        else
          match utf8Tail b r with
          | some (ch, r') => ch :: urlDecodeGo fuel r'
          | none => Char.ofNat 0xFFFD :: urlDecodeGo fuel r
    else c :: urlDecodeGo fuel rest

/-- Value (and key) decoding of one `URLSearchParams` piece. -/
def urlParamDecode (s : String) : String :=
  ⟨urlDecodeGo (s.data.length + 1) s.data⟩

/-- Split a query string on `&` (like `splitCommaChars` on commas). -/
def splitAmp : List Char → List (List Char)
  | [] => [[]]
  | c :: rest =>
    match splitAmp rest with
    | [] => [[]]
    | g :: gs => if c = '&' then [] :: g :: gs else (c :: g) :: gs

/-- Split one piece at its first `=`: the key and the value (everything
after; empty when there is no `=`). -/
def splitEq : List Char → List Char × List Char
  | [] => ([], [])
  | c :: rest =>
    if c = '=' then ([], rest)
    else
      let kv := splitEq rest
      (c :: kv.1, kv.2)

/-- `new URLSearchParams(query)`: the non-empty `&`-separated pieces,
each split at its first `=`, both halves form-urlencoded-decoded. -/
def parseParams (query : List Char) : List (String × String) :=
  ((splitAmp query).filter (fun p => p ≠ [])).map (fun piece =>
    (urlParamDecode ⟨(splitEq piece).1⟩, urlParamDecode ⟨(splitEq piece).2⟩))

/-- `params.get(key)`: the first value stored under `key`, if any. -/
def paramsGet (params : List (String × String)) (key : String) : Option String :=
  match params.find? (fun p => p.1 == key) with
  | some p => some p.2
  | none => none

/-- `window.location.search` without its leading `?`: everything after
the first `?` and before any `#`. -/
def locationSearch (url : String) : List Char :=
  ((url.data.dropWhile (fun c => c ≠ '?')).takeWhile (fun c => c ≠ '#')).drop 1

/-- `shareList` (App.jsx lines 152–158): the generated share URL.
`base` stands for `window.location.origin + window.location.pathname`. -/
def shareList (base : String) (items : List Item) (budget : String) : String :=
  base ++ "?items=" ++ encodeURIComponent ⟨stringifyItems items⟩ ++
    (if budget ≠ "" then "&budget=" ++ budget else "")

/-- The mount effect (App.jsx lines 20–37): the item-list and budget
state after loading `url`, starting from the defaults `([], "")`.  A
present non-empty `items` parameter is `decodeURIComponent`-ed (a second
decode — `URLSearchParams.get` has already percent-decoded it once) and
`JSON.parse`-d; any failure there is caught, leaving the default list.
A present non-empty `budget` parameter is adopted verbatim. -/
def loadFromUrl (url : String) : List Item × String :=
  let params := parseParams (locationSearch url)
  let itemsState :=
    match paramsGet params "items" with
    | some s =>
      if s ≠ "" then
        match decodeURIComponentQ s with
        | some decoded =>
          match parseItemsArray decoded.data with
          | some its => its
          | none => []
        | none => []
      else []
    | none => []
  let budgetState :=
    match paramsGet params "budget" with
    | some b => if b ≠ "" then b else ""
    | none => ""
  (itemsState, budgetState)

/-- Characters that survive the whole share pipeline untouched: ASCII
letters and digits, the space, the dot and the minus sign. -/
def shareSafeChar (c : Char) : Bool :=
  c.isAlphanum ∨ c = ' ' ∨ c = '.' ∨ c = '-'

/-- The characters `JSON.stringify` can emit for an item list with
share-safe fields: share-safe characters and the JSON punctuation. -/
def jsonOutChar (c : Char) : Bool :=
  shareSafeChar c ∨ c = '[' ∨ c = ']' ∨ c = ':' ∨ c = ',' ∨ c = '"' ∨
    c = lbrace ∨ c = rbrace ∨ c = 't' ∨ c = 'r' ∨ c = 'u' ∨ c = 'e' ∨
    c = 'f' ∨ c = 'a' ∨ c = 'l' ∨ c = 's'

/-- A string of share-safe characters. -/
def shareSafeStr (s : String) : Prop := ∀ c ∈ s.data, shareSafeChar c = true

/-- Characters safe for the raw-spliced budget parameter: ASCII letters
and digits, the dot and the minus sign. -/
def budgetSafeChar (c : Char) : Bool := c.isAlphanum ∨ c = '.' ∨ c = '-'

end Grocery

namespace Grocery

/-! ## Helper lemmas -/

/-- The duplicate check succeeds exactly when some current item's
lower-cased name coincides with the candidate's. -/
theorem findLowerMatch_isSome (items : List Item) (name : String) :
    (findLowerMatch items name).isSome = true ↔
      ∃ i ∈ items, jsToLower i.name = jsToLower name := by
  rw [findLowerMatch, List.find?_isSome]
  simp only [beq_iff_eq]

/-- `parseFloat(x) || 0` equals the parsed value with failure defaulted
to `0`. -/
theorem parseFloatOrZero_eq_getD (s : String) :
    parseFloatOrZero s = (parseFloatQ s).getD 0 := by
  rw [parseFloatOrZero]
  cases parseFloatQ s with
  | none => rfl
  | some v =>
    by_cases hv : v = 0 <;> simp [hv]

/-- The list component of `addMultipleItems` is always the original list
followed by the batch survivors (when no candidate survives nothing is
appended). -/
theorem addMultipleItems_fst (items : List Item) (names : List String) :
    (addMultipleItems items names).1 = items ++ batchSurvivors items names := by
  by_cases h : (batchSurvivors items names).length > 0
  · rw [addMultipleItems, if_pos h]
  · rw [addMultipleItems, if_neg h]
    have : batchSurvivors items names = [] :=
      List.length_eq_zero.mp (Nat.eq_zero_of_not_pos h)
    rw [this, List.append_nil]

/-- Left fold of rational addition over mapped values is the sum of the
mapped list. -/
theorem foldl_add_eq_sum (f : Item → ℚ) :
    ∀ (l : List Item) (a : ℚ), l.foldl (fun s i => s + f i) a = a + (l.map f).sum
  | [], a => by simp
  | x :: xs, a => by
    simp only [List.foldl_cons, List.map_cons, List.sum_cons,
      foldl_add_eq_sum f xs]
    ring

/-! ## C3 — `addItem` -/

/-- C3: `addItem` trims its input; if the trimmed name is empty or
case-insensitively matches an existing item's name the list is
unchanged, otherwise exactly the item `{name: trimmed, inPantry: false,
estimatedPrice: ''}` is appended at the end. -/
theorem addItem_spec (items : List Item) (itemName : String) :
    ((jsTrim itemName = "" ∨
        ∃ i ∈ items, jsToLower i.name = jsToLower (jsTrim itemName)) →
      addItem items itemName = items) ∧
    (jsTrim itemName ≠ "" →
      (∀ i ∈ items, jsToLower i.name ≠ jsToLower (jsTrim itemName)) →
      addItem items itemName =
        items ++ [Item.mk (jsTrim itemName) false ""]) := by
  unfold addItem
  constructor
  · intro h
    rw [if_neg]
    rintro ⟨h1, h2⟩
    rcases h with h | h
    · exact h1 h
    · rw [(findLowerMatch_isSome items (jsTrim itemName)).mpr h] at h2
      cases h2
  · intro h1 h2
    rw [if_pos]
    refine ⟨h1, ?_⟩
    rw [Bool.eq_false_iff]
    intro hs
    obtain ⟨i, hi, hl⟩ := (findLowerMatch_isSome items (jsTrim itemName)).mp hs
    exact h2 i hi hl

/-- Witness for C3: a case-insensitive duplicate (`"eGGs "` against
`"Eggs"`) is a no-op, and adding `"  Eggs  "` to the empty list appends
the trimmed item `{name: "Eggs", inPantry: false, estimatedPrice: ""}`. -/
theorem addItem_spec_witness :
    addItem [⟨"Eggs", false, ""⟩] "eGGs " = [⟨"Eggs", false, ""⟩] ∧
    addItem [] "  Eggs  " = [⟨"Eggs", false, ""⟩] := by
  constructor
  · exact (addItem_spec [⟨"Eggs", false, ""⟩] "eGGs ").1
      (Or.inr ⟨⟨"Eggs", false, ""⟩, by decide, by decide⟩)
  · exact (addItem_spec [] "  Eggs  ").2 (by decide) (by simp)

/-! ## C4 — `estimatedTotal` -/

/-- C4: `estimatedTotal` is the sum, over exactly the items with
`inPantry = false`, of the parsed `estimatedPrice`, an unparsable price
contributing `0`; pantry items contribute nothing. -/
theorem estimatedTotal_spec (items : List Item) :
    estimatedTotal items =
      ((items.filter (fun i => i.inPantry = false)).map
        (fun i => (parseFloatQ i.estimatedPrice).getD 0)).sum := by
  unfold estimatedTotal
  have hp : ∀ i ∈ items, (!i.inPantry) = decide (i.inPantry = false) := by
    intro i _
    cases i.inPantry <;> rfl
  rw [List.filter_congr hp, foldl_add_eq_sum, zero_add]
  congr 1
  exact List.map_congr_left fun i _ => parseFloatOrZero_eq_getD i.estimatedPrice

/-! ## C5 — budget flag and progress -/

/-- C5: the parsed budget defaults unparsable input to `0`;
`isOverBudget` holds exactly when the parsed budget is positive and the
estimated total exceeds it; `budgetProgress` is the clamped percentage
for a positive budget and `0` otherwise. -/
theorem budget_tracking_spec (items : List Item) (budget : String) :
    budgetNum budget = (parseFloatQ budget).getD 0 ∧
    (isOverBudget items budget = true ↔
      0 < budgetNum budget ∧ budgetNum budget < estimatedTotal items) ∧
    (0 < budgetNum budget →
      budgetProgress items budget =
        min (estimatedTotal items / budgetNum budget * 100) 100) ∧
    (¬ 0 < budgetNum budget → budgetProgress items budget = 0) := by
  refine ⟨parseFloatOrZero_eq_getD budget, ?_, ?_, ?_⟩
  · rw [isOverBudget, Bool.and_eq_true, decide_eq_true_iff, decide_eq_true_iff]
  · intro h
    rw [budgetProgress, if_pos h]
  · intro h
    rw [budgetProgress, if_neg h]

/-- Witness for C5: budget `10` with a single shopping item priced
`12.5` is over budget with progress clamped to `100`; budget `0` and the
empty budget give `isOverBudget = false` and progress `0` for the same
list. -/
theorem budget_tracking_spec_witness :
    isOverBudget [⟨"a", false, "12.5"⟩] "10" = true ∧
    budgetProgress [⟨"a", false, "12.5"⟩] "10" = 100 ∧
    isOverBudget [⟨"a", false, "12.5"⟩] "0" = false ∧
    budgetProgress [⟨"a", false, "12.5"⟩] "0" = 0 ∧
    isOverBudget [⟨"a", false, "12.5"⟩] "" = false ∧
    budgetProgress [⟨"a", false, "12.5"⟩] "" = 0 := by
  have ht : estimatedTotal [⟨"a", false, "12.5"⟩] = 25/2 := by
    simp [estimatedTotal, parseFloatOrZero, parseFloatQ, parseFloatChars,
      parseUnsigned, mantissaVal, parseExponent, signedExp, expDigitsVal,
      digitsVal, digitVal, jsWhitespace, List.dropWhile, List.takeWhile,
      List.foldl, List.filter]
    norm_num
  have hb10 : budgetNum "10" = 10 := by
    simp [budgetNum, parseFloatOrZero, parseFloatQ, parseFloatChars,
      parseUnsigned, mantissaVal, parseExponent, signedExp, expDigitsVal,
      digitsVal, digitVal, jsWhitespace, List.dropWhile, List.takeWhile,
      List.foldl]
  have hb0 : budgetNum "0" = 0 := by
    simp [budgetNum, parseFloatOrZero, parseFloatQ, parseFloatChars,
      parseUnsigned, mantissaVal, parseExponent, signedExp, expDigitsVal,
      digitsVal, digitVal, jsWhitespace, List.dropWhile, List.takeWhile,
      List.foldl]
  have hbe : budgetNum "" = 0 := by
    simp [budgetNum, parseFloatOrZero, parseFloatQ, parseFloatChars,
      parseUnsigned, jsWhitespace, List.dropWhile, List.takeWhile]
  refine ⟨?_, ?_, ?_, ?_, ?_, ?_⟩
  · exact (budget_tracking_spec [⟨"a", false, "12.5"⟩] "10").2.1.mpr
      ⟨by rw [hb10]; norm_num, by rw [hb10, ht]; norm_num⟩
  · rw [(budget_tracking_spec [⟨"a", false, "12.5"⟩] "10").2.2.1
      (by rw [hb10]; norm_num), ht, hb10]
    rw [min_eq_right (by norm_num)]
  · refine Bool.eq_false_iff.mpr fun h => ?_
    have := ((budget_tracking_spec [⟨"a", false, "12.5"⟩] "0").2.1.mp h).1
    rw [hb0] at this
    exact absurd this (by norm_num)
  · exact (budget_tracking_spec [⟨"a", false, "12.5"⟩] "0").2.2.2
      (by rw [hb0]; norm_num)
  · refine Bool.eq_false_iff.mpr fun h => ?_
    have := ((budget_tracking_spec [⟨"a", false, "12.5"⟩] "").2.1.mp h).1
    rw [hbe] at this
    exact absurd this (by norm_num)
  · exact (budget_tracking_spec [⟨"a", false, "12.5"⟩] "").2.2.2
      (by rw [hbe]; norm_num)

/-! ## C2 — case-insensitive uniqueness at insertion -/

/-- Counterexample to C2 as stated: a batch with an internal duplicate
passes `addMultipleItems`' filter (which only checks against the list
state at call time), so insertion into a uniquely-named list can produce
duplicate names. -/
theorem insertion_unique_counterexample :
    NamesCIUnique ([] : List Item) ∧
    ¬ NamesCIUnique (addMultipleItems [] ["Milk", "milk"]).1 := by
  constructor
  · exact List.Pairwise.nil
  · intro h
    rw [show (addMultipleItems [] ["Milk", "milk"]).1 =
        [⟨"Milk", false, ""⟩, ⟨"milk", false, ""⟩] from by decide] at h
    rcases h with - | ⟨hne, -⟩
    exact hne _ (List.mem_singleton.mpr rfl) (by decide)

/-- C2 amended: `addItem` always preserves case-insensitive uniqueness
of the names; `addMultipleItems` preserves it provided the trimmed batch
members are themselves pairwise case-insensitively distinct (the filter
checks candidates only against the list state at call time, so an
internal duplicate in the batch is not caught). -/
theorem insertion_unique_amended (items : List Item) (itemName : String)
    (names : List String) :
    (NamesCIUnique items → NamesCIUnique (addItem items itemName)) ∧
    (NamesCIUnique items →
      List.Pairwise (fun a b => jsToLower a ≠ jsToLower b) (names.map jsTrim) →
      NamesCIUnique (addMultipleItems items names).1) := by
  constructor
  · intro hu
    rw [addItem]
    split_ifs with h
    · rw [NamesCIUnique, List.pairwise_append]
      refine ⟨hu, List.pairwise_singleton _ _, ?_⟩
      intro a ha b hb
      rw [List.mem_singleton] at hb
      subst hb
      have hnone : findLowerMatch items (jsTrim itemName) = none :=
        Option.not_isSome_iff_eq_none.mp (by rw [h.2]; exact Bool.false_ne_true)
      have := List.find?_eq_none.mp hnone a ha
      simpa using this
    · exact hu
  · intro hu hbatch
    rw [addMultipleItems_fst, NamesCIUnique, List.pairwise_append]
    refine ⟨hu, ?_, ?_⟩
    · rw [batchSurvivors, List.pairwise_map]
      exact (hbatch.sublist (List.filter_sublist _)).imp (by intro a b hab; simpa using hab)
    · intro a ha b hb
      rw [batchSurvivors, List.mem_map] at hb
      obtain ⟨n, hn, rfl⟩ := hb
      have hmem := List.of_mem_filter hn
      have hnone : findLowerMatch items n = none := by
        refine Option.not_isSome_iff_eq_none.mp ?_
        have := (of_decide_eq_true hmem).2
        rw [this]
        exact Bool.false_ne_true
      have := List.find?_eq_none.mp hnone a ha
      simpa using this

/-! ## C6 — `addMultipleItems` -/

/-- C6: `addMultipleItems` trims each candidate, filters out the empty
ones and those case-insensitively matching a name already in the list at
call time (and nothing else — in particular batch-internal duplicates
all survive), appends the survivors in order with `inPantry = false` and
an empty price, and notifies with the survivor count; with zero
survivors the list is unchanged and no notification is emitted. -/
theorem addMultipleItems_spec (items : List Item) (names : List String) :
    (addMultipleItems items names).1 = items ++
      ((names.map jsTrim).filter (fun n => n ≠ "" ∧
        ∀ i ∈ items, jsToLower i.name ≠ jsToLower n)).map
        (fun n => Item.mk n false "") ∧
    (addMultipleItems items names).2 =
      (if ((names.map jsTrim).filter (fun n => n ≠ "" ∧
          ∀ i ∈ items, jsToLower i.name ≠ jsToLower n)) = [] then none
       else some ("Added " ++
        toString ((names.map jsTrim).filter (fun n => n ≠ "" ∧
          ∀ i ∈ items, jsToLower i.name ≠ jsToLower n)).length ++ " item" ++
        (if ((names.map jsTrim).filter (fun n => n ≠ "" ∧
          ∀ i ∈ items, jsToLower i.name ≠ jsToLower n)).length > 1
         then "s" else "") ++ "!")) := by
  have hpred : ∀ n ∈ names.map jsTrim,
      (decide (n ≠ "" ∧ (findLowerMatch items n).isSome = false)) =
      (decide (n ≠ "" ∧ ∀ i ∈ items, jsToLower i.name ≠ jsToLower n)) := by
    intro n _
    apply decide_eq_decide.mpr
    apply and_congr_right
    intro _
    rw [Bool.eq_false_iff]
    constructor
    · intro h i hi hl
      exact h ((findLowerMatch_isSome items n).mpr ⟨i, hi, hl⟩)
    · intro h htrue
      obtain ⟨i, hi, hl⟩ := (findLowerMatch_isSome items n).mp htrue
      exact h i hi hl
  have hS : batchSurvivors items names =
      ((names.map jsTrim).filter (fun n => n ≠ "" ∧
        ∀ i ∈ items, jsToLower i.name ≠ jsToLower n)).map
        (fun n => Item.mk n false "") := by
    rw [batchSurvivors, List.filter_congr hpred]
  constructor
  · rw [addMultipleItems_fst, hS]
  · rw [addMultipleItems, hS, List.length_map]
    by_cases h0 : ((names.map jsTrim).filter (fun n => n ≠ "" ∧
        ∀ i ∈ items, jsToLower i.name ≠ jsToLower n)) = []
    · rw [if_pos h0, h0]
      simp
    · rw [if_neg h0, if_pos (List.length_pos.mpr h0)]

/-! ## C2 — case-insensitive uniqueness at insertion (continued) -/

/-- Witness for C2 amended: adding `" eggs "` to a uniquely-named list
keeps the names unique, and a batch of pairwise-distinct candidates
(`"milk"` being an existing duplicate is filtered out) keeps them unique
too. -/
theorem insertion_unique_amended_witness :
    NamesCIUnique (addItem [⟨"Milk", false, ""⟩] " eggs ") ∧
    NamesCIUnique (addMultipleItems [⟨"Milk", false, ""⟩]
      ["milk", "Bread", "jam"]).1 := by
  constructor
  · exact (insertion_unique_amended [⟨"Milk", false, ""⟩] " eggs " []).1
      (List.pairwise_singleton _ _)
  · exact (insertion_unique_amended [⟨"Milk", false, ""⟩] ""
      ["milk", "Bread", "jam"]).2 (List.pairwise_singleton _ _) (by decide)

/-! ## C7 — recipe import error handling -/

/-- Counterexample to C7 as stated: when the response text contains no
bracketed array the list is indeed left unchanged, but the code silently
skips the parse (`if (jsonMatch)` with no else), so no failure
notification of any kind is reported. -/
theorem import_failure_counterexample :
    (importRecipe [] "http://recipe" true
      (ImportOutcome.ok "no array here")).items = [] ∧
    (importRecipe [] "http://recipe" true
      (ImportOutcome.ok "no array here")).notification = none := by
  decide

/-- C7 amended: assuming the recipe URL is non-empty after trimming (an
empty one returns before doing anything), every outcome clears the
importing flag and the URL buffer; a network/decode error or a
non-parsing bracketed slice leaves the list unchanged and reports the
generic failure notification; a response text with no bracketed array
leaves the list unchanged but reports no notification at all. -/
theorem import_recipe_amended (items : List Item) (recipeUrl : String)
    (hasKey : Bool) (outcome : ImportOutcome)
    (hurl : jsTrim recipeUrl ≠ "") :
    ((importRecipe items recipeUrl hasKey outcome).isImporting = false ∧
     (importRecipe items recipeUrl hasKey outcome).recipeUrl = "") ∧
    (hasKey = true → outcome = ImportOutcome.networkError →
      (importRecipe items recipeUrl hasKey outcome).items = items ∧
      (importRecipe items recipeUrl hasKey outcome).notification =
        some "Failed to import recipe") ∧
    (∀ text, hasKey = true → outcome = ImportOutcome.ok text →
      extractBracket text.data = none →
      (importRecipe items recipeUrl hasKey outcome).items = items ∧
      (importRecipe items recipeUrl hasKey outcome).notification = none) ∧
    (∀ text slice, hasKey = true → outcome = ImportOutcome.ok text →
      extractBracket text.data = some slice → parseStringArray slice = none →
      (importRecipe items recipeUrl hasKey outcome).items = items ∧
      (importRecipe items recipeUrl hasKey outcome).notification =
        some "Failed to import recipe") := by
  refine ⟨?_, ?_, ?_, ?_⟩
  · rw [importRecipe.eq_def, if_neg hurl]
    cases hasKey with
    | false => exact ⟨rfl, rfl⟩
    | true =>
      cases outcome with
      | networkError => exact ⟨rfl, rfl⟩
      | ok text =>
        cases hb : extractBracket text.data with
        | none => simp [hb]
        | some slice =>
          cases hp : parseStringArray slice with
          | none => simp [hb, hp]
          | some ingredients => simp [hb, hp]
  · rintro hk rfl
    subst hk
    rw [importRecipe.eq_def, if_neg hurl]
    exact ⟨rfl, rfl⟩
  · rintro text hk rfl hb
    subst hk
    rw [importRecipe.eq_def, if_neg hurl]
    simp [hb]
  · rintro text slice hk rfl hb hp
    subst hk
    rw [importRecipe.eq_def, if_neg hurl]
    simp [hb, hp]

/-- Witness for C7 amended: with a non-empty URL and a key, a response
with no bracketed array changes nothing and emits no notification; a
network error reports the generic failure; a bracketed slice that is not
a JSON string array reports the generic failure; the flag and URL buffer
are cleared. -/
theorem import_recipe_amended_witness :
    (importRecipe [⟨"Milk", false, ""⟩] "http://r" true
      (ImportOutcome.ok "no array here")).items = [⟨"Milk", false, ""⟩] ∧
    (importRecipe [⟨"Milk", false, ""⟩] "http://r" true
      (ImportOutcome.ok "no array here")).notification = none ∧
    (importRecipe [⟨"Milk", false, ""⟩] "http://r" true
      ImportOutcome.networkError).notification = some "Failed to import recipe" ∧
    (importRecipe [⟨"Milk", false, ""⟩] "http://r" true
      (ImportOutcome.ok "see [1, 2] end")).notification =
        some "Failed to import recipe" ∧
    (importRecipe [⟨"Milk", false, ""⟩] "http://r" true
      (ImportOutcome.ok "no array here")).isImporting = false ∧
    (importRecipe [⟨"Milk", false, ""⟩] "http://r" true
      (ImportOutcome.ok "no array here")).recipeUrl = "" := by
  have h₁ := import_recipe_amended [⟨"Milk", false, ""⟩] "http://r" true
    (ImportOutcome.ok "no array here") (by decide)
  have h₂ := import_recipe_amended [⟨"Milk", false, ""⟩] "http://r" true
    ImportOutcome.networkError (by decide)
  have h₃ := import_recipe_amended [⟨"Milk", false, ""⟩] "http://r" true
    (ImportOutcome.ok "see [1, 2] end") (by decide)
  refine ⟨(h₁.2.2.1 "no array here" rfl rfl (by decide)).1,
    (h₁.2.2.1 "no array here" rfl rfl (by decide)).2,
    (h₂.2.1 rfl rfl).2,
    (h₃.2.2.2 "see [1, 2] end" "[1, 2]".data rfl rfl (by decide) (by decide)).2,
    h₁.1.1, h₁.1.2⟩

/-! ## C1 — share codec round trip

Helper stack: character-class facts, the JSON printer/parser round trip
on share-safe strings, inversion of the `URLSearchParams` decoding on
`encodeURIComponent` output, transparency of the strict
`decodeURIComponent` on percent-free text, and the query-string plumbing
lemmas. -/

/-- Case ranges of an alphanumeric character. -/
theorem alphanum_ranges (c : Char) (h : c.isAlphanum = true) :
    (65 ≤ c.toNat ∧ c.toNat ≤ 90) ∨ (97 ≤ c.toNat ∧ c.toNat ≤ 122) ∨
      (48 ≤ c.toNat ∧ c.toNat ≤ 57) := by
  simp only [Char.isAlphanum, Char.isAlpha, Char.isUpper, Char.isLower,
    Char.isDigit, Bool.or_eq_true, Bool.and_eq_true, decide_eq_true_iff] at h
  rcases h with (⟨h1, h2⟩ | ⟨h1, h2⟩) | ⟨h1, h2⟩
  · exact Or.inl ⟨h1, h2⟩
  · exact Or.inr (Or.inl ⟨h1, h2⟩)
  · exact Or.inr (Or.inr ⟨h1, h2⟩)

/-- Alphanumeric characters are in `encodeURIComponent`'s unreserved
set. -/
theorem uriUnreserved_of_alphanum (c : Char) (h : c.isAlphanum = true) :
    uriUnreserved c = true := by
  simp only [uriUnreserved, decide_eq_true_iff, Char.le_def]
  rcases alphanum_ranges c h with ⟨h1, h2⟩ | ⟨h1, h2⟩ | ⟨h1, h2⟩
  · exact Or.inl ⟨h1, h2⟩
  · exact Or.inr (Or.inl ⟨h1, h2⟩)
  · exact Or.inr (Or.inr (Or.inl ⟨h1, h2⟩))

/-- A share-safe character is not a quote, not a backslash and not a
control character. -/
theorem shareSafeChar_facts (c : Char) (h : shareSafeChar c = true) :
    c ≠ '"' ∧ c ≠ '\\' ∧ 32 ≤ c.toNat := by
  have halt : c.isAlphanum = true ∨ c = ' ' ∨ c = '.' ∨ c = '-' := by
    simpa [shareSafeChar] using h
  refine ⟨?_, ?_, ?_⟩
  · rintro rfl
    rcases halt with h' | h' | h' | h' <;> simp at h'
  · rintro rfl
    rcases halt with h' | h' | h' | h' <;> simp at h'
  · rcases halt with h' | rfl | rfl | rfl
    · rcases alphanum_ranges c h' with ⟨h1, _⟩ | ⟨h1, _⟩ | ⟨h1, _⟩ <;> omega
    · decide
    · decide
    · decide

/-- `JSON.stringify` escapes nothing in a share-safe character. -/
theorem jsonEscapeChar_safe (c : Char) (h : shareSafeChar c = true) :
    jsonEscapeChar c = [c] := by
  obtain ⟨h1, h2, h3⟩ := shareSafeChar_facts c h
  rw [jsonEscapeChar, if_neg h1, if_neg h2]
  rw [if_neg (by rintro rfl; revert h3; decide),
    if_neg (by rintro rfl; revert h3; decide),
    if_neg (by rintro rfl; revert h3; decide),
    if_neg (by rintro rfl; revert h3; decide),
    if_neg (by rintro rfl; revert h3; decide),
    if_neg (by omega)]

/-- A share-safe string passes through the escaper verbatim. -/
theorem flatMap_escape_safe (l : List Char)
    (h : ∀ c ∈ l, shareSafeChar c = true) :
    l.flatMap jsonEscapeChar = l := by
  induction l with
  | nil => rfl
  | cons c l' ih =>
    rw [List.flatMap_cons, jsonEscapeChar_safe c (h c (List.mem_cons_self c l')),
      ih (fun d hd => h d (List.mem_cons_of_mem c hd)), List.singleton_append]

/-- The string-body parser inverts the printer on share-safe strings. -/
theorem parseJsonStringGo_safe :
    ∀ (l : List Char) (fuel : Nat) (rest : List Char),
      l.length < fuel → (∀ c ∈ l, shareSafeChar c = true) →
      parseJsonStringGo fuel (l ++ '"' :: rest) = some (l, rest)
  | [], fuel, rest, hf, _ => by
    cases fuel with
    | zero => omega
    | succ f => rw [List.nil_append, parseJsonStringGo, if_pos rfl]
  | c :: l', fuel, rest, hf, h => by
    cases fuel with
    | zero => omega
    | succ f =>
      obtain ⟨h1, h2, h3⟩ := shareSafeChar_facts c (h c (List.mem_cons_self c l'))
      rw [List.cons_append, parseJsonStringGo, if_neg h1, if_neg h2,
        if_neg (by omega),
        parseJsonStringGo_safe l' f rest
          (by simpa using Nat.lt_of_succ_lt_succ hf)
          (fun d hd => h d (List.mem_cons_of_mem c hd))]
      rfl

/-- The quoted-string parser inverts `jsonQuote` on share-safe
strings. -/
theorem parseQuoted_safe (s : String) (rest : List Char)
    (h : shareSafeStr s) :
    parseQuoted (jsonQuote s ++ rest) = some (s, rest) := by
  rw [jsonQuote, flatMap_escape_safe s.data h]
  rw [parseQuoted]
  have harr : ('"' :: s.data ++ ['"']) ++ rest = '"' :: (s.data ++ '"' :: rest) := by
    simp
  rw [harr]
  rw [List.dropWhile_cons, if_neg (by decide)]
  simp only [parseJsonStringBody]
  rw [parseJsonStringGo_safe s.data _ rest (by simp [List.length_append]; omega) h]
  rfl

/-- A share-safety proof by computation on a concrete string. -/
theorem shareSafeStr_of_all (s : String) (h : s.data.all shareSafeChar = true) :
    shareSafeStr s := by
  intro c hc
  exact List.all_eq_true.mp h c hc

/-- Reading an expected head character that is not whitespace. -/
theorem expectChar_head (c : Char) (l : List Char) (h : jsonWs c = false) :
    expectChar c (c :: l) = some l := by
  rw [expectChar, List.dropWhile_cons, if_neg (by simp [h])]
  show (if c = c then some l else none) = some l
  rw [if_pos rfl]

/-- Parsing a share-safe key in printed form. -/
theorem parseKey_self (key : String) (rest : List Char)
    (hsafe : shareSafeStr key) :
    parseKey key (jsonQuote key ++ ':' :: rest) = some rest := by
  rw [parseKey, parseQuoted_safe key (':' :: rest) hsafe]
  show (if key = key then expectChar ':' (':' :: rest) else none) = some rest
  rw [if_pos rfl, expectChar_head ':' rest (by decide)]

/-- Parsing the printed boolean, whatever follows. -/
theorem parseBool_printed (b : Bool) (tail : List Char) :
    parseBool (((if b = true then "true".data else "false".data) ++
      tail).dropWhile jsonWs) = some (b, tail) := by
  cases b
  · rw [if_neg (by simp)]
    rfl
  · rw [if_pos rfl]
    rfl

/-- The object parser inverts the printer on an item with share-safe
fields. -/
theorem parseItemObj_safe (it : Item) (rest : List Char)
    (hn : shareSafeStr it.name) (hp : shareSafeStr it.estimatedPrice) :
    parseItemObj (stringifyItem it ++ rest) = some (it, rest) := by
  have e1 : stringifyItem it ++ rest =
      lbrace :: (jsonQuote "name" ++ ':' :: (jsonQuote it.name ++ ',' ::
        (jsonQuote "inPantry" ++ ':' ::
          ((if it.inPantry then "true".data else "false".data) ++ ',' ::
            (jsonQuote "estimatedPrice" ++ ':' ::
              (jsonQuote it.estimatedPrice ++ rbrace :: rest)))))) := by
    rw [stringifyItem]
    have k1 : "\"name\":".data = jsonQuote "name" ++ [':'] := by decide
    have k2 : ",\"inPantry\":".data = ',' :: (jsonQuote "inPantry" ++ [':']) := by
      decide
    have k3 : ",\"estimatedPrice\":".data =
        ',' :: (jsonQuote "estimatedPrice" ++ [':']) := by decide
    rw [k1, k2, k3]
    simp [List.append_assoc]
  rw [e1, parseItemObj]
  rw [expectChar_head lbrace _ (by decide)]
  simp only [Option.bind_eq_bind, Option.some_bind]
  rw [parseKey_self "name" _ (shareSafeStr_of_all "name" (by decide))]
  simp only [Option.some_bind]
  rw [parseQuoted_safe it.name _ hn]
  simp only [Option.some_bind]
  rw [expectChar_head ',' _ (by decide)]
  simp only [Option.some_bind]
  rw [parseKey_self "inPantry" _ (shareSafeStr_of_all "inPantry" (by decide))]
  simp only [Option.some_bind]
  rw [parseBool_printed it.inPantry]
  simp only [Option.some_bind]
  rw [expectChar_head ',' _ (by decide)]
  simp only [Option.some_bind]
  rw [parseKey_self "estimatedPrice" _
    (shareSafeStr_of_all "estimatedPrice" (by decide))]
  simp only [Option.some_bind]
  rw [parseQuoted_safe it.estimatedPrice _ hp]
  simp only [Option.some_bind]
  rw [expectChar_head rbrace _ (by decide)]
  simp only [Option.some_bind]
  rfl

/-- The printed form of an item is never empty. -/
theorem stringifyItem_length_pos (it : Item) : 0 < (stringifyItem it).length := by
  rw [stringifyItem]
  simp

/-- There are at least as many printed characters as items. -/
theorem length_le_inner : ∀ items : List Item,
    items.length ≤ (stringifyItemsInner items).length
  | [] => le_refl 0
  | [it] => by
    simpa using Nat.succ_le_of_lt (stringifyItem_length_pos it)
  | it :: x :: tl => by
    have ih := length_le_inner (x :: tl)
    have hpos := stringifyItem_length_pos it
    rw [show stringifyItemsInner (it :: x :: tl) =
      stringifyItem it ++ ',' :: stringifyItemsInner (x :: tl) from rfl]
    simp only [List.length_cons, List.length_append] at ih ⊢
    omega

/-- The element parser inverts the printed element list of a non-empty
item array with share-safe fields. -/
theorem parseItemElems_safe :
    ∀ (items : List Item) (fuel : Nat) (rest : List Char), items ≠ [] →
      items.length < fuel →
      (∀ it ∈ items, shareSafeStr it.name ∧ shareSafeStr it.estimatedPrice) →
      parseItemElems fuel (stringifyItemsInner items ++ ']' :: rest) =
        some (items, rest)
  | [], _, _, hne, _, _ => absurd rfl hne
  | [it], fuel, rest, _, hf, h => by
    cases fuel with
    | zero => omega
    | succ f =>
      obtain ⟨hn, hp⟩ := h it (List.mem_cons_self it [])
      rw [stringifyItemsInner, parseItemElems,
        parseItemObj_safe it (']' :: rest) hn hp]
      simp only [Option.bind_eq_bind, Option.some_bind]
      rw [List.dropWhile_cons, if_neg (by decide)]
      rfl
  | it :: x :: tl, fuel, rest, _, hf, h => by
    cases fuel with
    | zero => omega
    | succ f =>
      obtain ⟨hn, hp⟩ := h it (List.mem_cons_self it (x :: tl))
      rw [show stringifyItemsInner (it :: x :: tl) =
        stringifyItem it ++ ',' :: stringifyItemsInner (x :: tl) from rfl,
        List.append_assoc, List.cons_append,
        parseItemElems, parseItemObj_safe it _ hn hp]
      simp only [Option.bind_eq_bind, Option.some_bind]
      rw [List.dropWhile_cons, if_neg (by decide)]
      show (parseItemElems f (stringifyItemsInner (x :: tl) ++ ']' :: rest)).bind
        (fun a => pure (it :: a.1, a.2)) = some (it :: x :: tl, rest)
      rw [parseItemElems_safe (x :: tl) f rest (by simp) (by
          simp only [List.length_cons] at hf ⊢
          omega)
        (fun d hd => h d (List.mem_cons_of_mem it hd))]
      rfl

/-- `JSON.parse` inverts `JSON.stringify` on an item array with
share-safe fields. -/
theorem parseItemsArray_safe (items : List Item)
    (h : ∀ it ∈ items, shareSafeStr it.name ∧ shareSafeStr it.estimatedPrice) :
    parseItemsArray (stringifyItems items) = some items := by
  cases items with
  | nil => rfl
  | cons it tl =>
    have hhead : ∃ Y, stringifyItemsInner (it :: tl) = lbrace :: Y := by
      cases tl with
      | nil => exact ⟨_, rfl⟩
      | cons x tl' => exact ⟨_, rfl⟩
    obtain ⟨Y, hY⟩ := hhead
    rw [stringifyItems, parseItemsArray, hY]
    show (match parseItemElems ((lbrace :: Y ++ [']']).length + 1)
        (lbrace :: Y ++ [']']) with
      | some (its, r') => if r'.dropWhile jsonWs = [] then some its else none
      | none => none) = some (it :: tl)
    have harg : lbrace :: Y ++ [']'] =
        stringifyItemsInner (it :: tl) ++ ']' :: [] := by
      rw [hY]
    rw [harg]
    rw [parseItemElems_safe (it :: tl) _ [] (by simp) (by
        have hlen := length_le_inner (it :: tl)
        simp only [List.length_append, List.length_cons] at hlen ⊢
        omega) h]
    rfl

/-- The characters of a printed share-safe string literal. -/
theorem jsonQuote_chars (s : String) (hs : shareSafeStr s) :
    ∀ c ∈ jsonQuote s, jsonOutChar c = true := by
  intro c hc
  rw [jsonQuote, flatMap_escape_safe s.data hs] at hc
  rcases List.mem_cons.mp hc with rfl | hc
  · decide
  rcases List.mem_append.mp hc with hc | hc
  · simp [jsonOutChar, hs c hc]
  · rw [List.mem_singleton] at hc
    subst hc
    decide

/-- The characters `JSON.stringify` emits for a share-safe item. -/
theorem stringifyItem_chars (it : Item) (hn : shareSafeStr it.name)
    (hp : shareSafeStr it.estimatedPrice) :
    ∀ c ∈ stringifyItem it, jsonOutChar c = true := by
  intro c hc
  rw [stringifyItem] at hc
  simp only [List.append_assoc] at hc
  rcases List.mem_cons.mp hc with rfl | hc
  · decide
  rcases List.mem_append.mp hc with hc | hc
  · exact (by decide : ∀ d ∈ "\"name\":".data, jsonOutChar d = true) c hc
  rcases List.mem_append.mp hc with hc | hc
  · exact jsonQuote_chars it.name hn c hc
  rcases List.mem_append.mp hc with hc | hc
  · exact (by decide : ∀ d ∈ ",\"inPantry\":".data, jsonOutChar d = true) c hc
  rcases List.mem_append.mp hc with hc | hc
  · by_cases hb : it.inPantry = true
    · rw [if_pos hb] at hc
      exact (by decide : ∀ d ∈ "true".data, jsonOutChar d = true) c hc
    · rw [if_neg hb] at hc
      exact (by decide : ∀ d ∈ "false".data, jsonOutChar d = true) c hc
  rcases List.mem_append.mp hc with hc | hc
  · exact (by decide : ∀ d ∈ ",\"estimatedPrice\":".data, jsonOutChar d = true) c hc
  rcases List.mem_append.mp hc with hc | hc
  · exact jsonQuote_chars it.estimatedPrice hp c hc
  · rw [List.mem_singleton] at hc
    subst hc
    decide

/-- The printed element list only contains `jsonOutChar` characters. -/
theorem stringifyItemsInner_chars :
    ∀ (items : List Item),
      (∀ it ∈ items, shareSafeStr it.name ∧ shareSafeStr it.estimatedPrice) →
      ∀ c ∈ stringifyItemsInner items, jsonOutChar c = true
  | [], _, c, hc => absurd hc (by simp [stringifyItemsInner])
  | [it], h, c, hc => by
    obtain ⟨hn, hp⟩ := h it (List.mem_cons_self it [])
    exact stringifyItem_chars it hn hp c hc
  | it :: x :: tl, h, c, hc => by
    rw [show stringifyItemsInner (it :: x :: tl) =
      stringifyItem it ++ ',' :: stringifyItemsInner (x :: tl) from rfl] at hc
    rcases List.mem_append.mp hc with hc | hc
    · obtain ⟨hn, hp⟩ := h it (List.mem_cons_self it (x :: tl))
      exact stringifyItem_chars it hn hp c hc
    · rcases List.mem_cons.mp hc with rfl | hc
      · decide
      · exact stringifyItemsInner_chars (x :: tl)
          (fun d hd => h d (List.mem_cons_of_mem it hd)) c hc

/-- The whole `JSON.stringify` output only contains `jsonOutChar`
characters. -/
theorem stringifyItems_chars (items : List Item)
    (h : ∀ it ∈ items, shareSafeStr it.name ∧ shareSafeStr it.estimatedPrice) :
    ∀ c ∈ stringifyItems items, jsonOutChar c = true := by
  intro c hc
  rw [stringifyItems] at hc
  rcases List.mem_cons.mp hc with rfl | hc
  · decide
  rcases List.mem_append.mp hc with hc | hc
  · exact stringifyItemsInner_chars items h c hc
  · rw [List.mem_singleton] at hc
    subst hc
    decide

/-- A `jsonOutChar` character is not a percent sign. -/
theorem jsonOutChar_ne_percent (c : Char) (h : jsonOutChar c = true) :
    c ≠ '%' := by
  rintro rfl
  exact absurd h (by decide)

/-- Unfolding `encodeURIComponent` one input character at a time. -/
theorem encodeURIChars_cons (c : Char) (l : List Char) :
    encodeURIChars (c :: l) =
      (if uriUnreserved c then [c] else (utf8Bytes c).flatMap percentByte) ++
        encodeURIChars l := by
  rw [encodeURIChars, encodeURIChars, List.flatMap_cons]

/-- A character's code point is below `0x110000`. -/
theorem char_toNat_lt (c : Char) : c.toNat < 1114112 := by
  have h := c.valid
  rcases h with h | ⟨h1, h2⟩
  · rw [Char.toNat]
    omega
  · rw [Char.toNat]
    omega

/-- UTF-8 bytes are bytes. -/
theorem utf8Bytes_lt (c : Char) : ∀ b ∈ utf8Bytes c, b < 256 := by
  intro b hb
  have hv := char_toNat_lt c
  rw [utf8Bytes] at hb
  split_ifs at hb with h1 h2 h3 <;> simp only [List.mem_cons,
    List.not_mem_nil, or_false] at hb
  · subst hb
    omega
  · rcases hb with rfl | rfl <;> omega
  · rcases hb with rfl | rfl | rfl <;> omega
  · rcases hb with rfl | rfl | rfl | rfl <;> omega

/-- Every character of `encodeURIComponent` output is unreserved, a
percent sign or an uppercase hexadecimal digit. -/
theorem encodeURIChars_mem (l : List Char) (c : Char)
    (hc : c ∈ encodeURIChars l) :
    uriUnreserved c = true ∨ c = '%' ∨ ∃ n, n < 16 ∧ c = hexChar n := by
  rw [encodeURIChars] at hc
  rcases List.mem_flatMap.mp hc with ⟨d, _, hcd⟩
  by_cases hu : uriUnreserved d
  · rw [if_pos hu, List.mem_singleton] at hcd
    subst hcd
    exact Or.inl hu
  · rw [if_neg hu] at hcd
    rcases List.mem_flatMap.mp hcd with ⟨b, hbmem, hcb⟩
    have hb256 : b < 256 := utf8Bytes_lt d b hbmem
    rw [percentByte] at hcb
    rcases List.mem_cons.mp hcb with rfl | hcb
    · exact Or.inr (Or.inl rfl)
    rcases List.mem_cons.mp hcb with rfl | hcb
    · exact Or.inr (Or.inr ⟨b / 16, by omega, rfl⟩)
    · rw [List.mem_singleton] at hcb
      subst hcb
      exact Or.inr (Or.inr ⟨b % 16, by omega, rfl⟩)

/-- Hex digits decode back to their value. -/
theorem hexVal_hexChar : ∀ n < 16, hexVal (hexChar n) = some n := by decide

/-- An unreserved character is neither `%` nor `+`. -/
theorem uriUnreserved_facts (c : Char) (h : uriUnreserved c = true) :
    c ≠ '%' ∧ c ≠ '+' :=
  ⟨fun hc => absurd (hc ▸ h) (by decide), fun hc => absurd (hc ▸ h) (by decide)⟩

/-- Printable JSON output characters are ASCII. -/
theorem jsonOutChar_ascii (c : Char) (h : jsonOutChar c = true) :
    c.toNat < 128 := by
  have h' : shareSafeChar c = true ∨ c = '[' ∨ c = ']' ∨ c = ':' ∨ c = ',' ∨
      c = '"' ∨ c = lbrace ∨ c = rbrace ∨ c = 't' ∨ c = 'r' ∨ c = 'u' ∨
      c = 'e' ∨ c = 'f' ∨ c = 'a' ∨ c = 'l' ∨ c = 's' := by
    simpa [jsonOutChar] using h
  rcases h' with hs | rfl | rfl | rfl | rfl | rfl | rfl | rfl | rfl | rfl |
    rfl | rfl | rfl | rfl | rfl | rfl
  · have hs' : c.isAlphanum = true ∨ c = ' ' ∨ c = '.' ∨ c = '-' := by
      simpa [shareSafeChar] using hs
    rcases hs' with ha | rfl | rfl | rfl
    · rcases alphanum_ranges c ha with ⟨_, h2⟩ | ⟨_, h2⟩ | ⟨_, h2⟩ <;> omega
    all_goals decide
  all_goals decide

/-- `URLSearchParams` decoding undoes the percent-escape of one ASCII
character. -/
theorem urlDecodeGo_ascii_escape (c : Char) (hlt : c.toNat < 128) (f : Nat)
    (rest : List Char) :
    urlDecodeGo (f + 1) (((utf8Bytes c).flatMap percentByte) ++ rest) =
      c :: urlDecodeGo f rest := by
  rw [show utf8Bytes c = [c.toNat] from by rw [utf8Bytes, if_pos hlt]]
  rw [show [c.toNat].flatMap percentByte = percentByte c.toNat from by simp]
  rw [percentByte, List.cons_append, List.cons_append, List.singleton_append]
  rw [urlDecodeGo, if_neg (by decide), if_pos rfl]
  have hpb : percentByteAt ('%' :: hexChar (c.toNat / 16) ::
      hexChar (c.toNat % 16) :: rest) = some (c.toNat, rest) := by
    rw [percentByteAt, hexVal_hexChar (c.toNat / 16) (by omega),
      hexVal_hexChar (c.toNat % 16) (by omega)]
    show some (c.toNat / 16 * 16 + c.toNat % 16, rest) = some (c.toNat, rest)
    exact congrArg (fun n => some (n, rest)) (by omega)
  rw [hpb]
  show (if c.toNat < 128 then Char.ofNat c.toNat :: urlDecodeGo f rest
    else _) = c :: urlDecodeGo f rest
  rw [if_pos hlt, Char.ofNat_toNat]

/-- `URLSearchParams` decoding inverts `encodeURIComponent` on
stringified share-safe payloads. -/
theorem urlDecodeGo_encode :
    ∀ (l : List Char) (fuel : Nat), (encodeURIChars l).length < fuel →
      (∀ c ∈ l, jsonOutChar c = true) →
      urlDecodeGo fuel (encodeURIChars l) = l
  | [], fuel, hf, _ => by
    rw [show encodeURIChars [] = [] from rfl] at hf ⊢
    cases fuel with
    | zero => omega
    | succ f => rw [urlDecodeGo]
  | c :: l', fuel, hf, h => by
    have hj := h c (List.mem_cons_self c l')
    have hrec : ∀ d ∈ l', jsonOutChar d = true :=
      fun d hd => h d (List.mem_cons_of_mem c hd)
    rw [encodeURIChars_cons] at hf ⊢
    by_cases hu : uriUnreserved c = true
    · rw [if_pos hu] at hf ⊢
      rw [List.singleton_append]
      simp only [List.length_cons, List.length_append, List.length_singleton] at hf
      cases fuel with
      | zero => omega
      | succ f =>
        rw [urlDecodeGo, if_neg (uriUnreserved_facts c hu).2,
          if_neg (uriUnreserved_facts c hu).1,
          urlDecodeGo_encode l' f (by omega) hrec]
    · rw [if_neg hu] at hf ⊢
      have hlt := jsonOutChar_ascii c hj
      rw [show utf8Bytes c = [c.toNat] from by rw [utf8Bytes, if_pos hlt]] at hf
      simp only [List.length_append, List.flatMap_cons, List.flatMap_nil,
        List.append_nil, percentByte, List.length_cons, List.length_nil] at hf
      cases fuel with
      | zero => omega
      | succ f =>
        rw [urlDecodeGo_ascii_escape c hlt f _,
          urlDecodeGo_encode l' f (by omega) hrec]

/-- The strict `decodeURIComponent` is the identity on percent-free
text. -/
theorem decodeURIGo_no_percent :
    ∀ (l : List Char) (fuel : Nat), l.length < fuel →
      (∀ c ∈ l, c ≠ '%') → decodeURIGo fuel l = some l
  | [], fuel, hf, _ => by
    cases fuel with
    | zero => omega
    | succ f => rw [decodeURIGo]
  | c :: l', fuel, hf, h => by
    cases fuel with
    | zero => simp at hf
    | succ f =>
      rw [decodeURIGo, if_neg (h c (List.mem_cons_self c l')),
        decodeURIGo_no_percent l' f (by simp at hf; omega)
          (fun d hd => h d (List.mem_cons_of_mem c hd))]
      rfl

/-- `URLSearchParams` decoding is the identity on text free of `%` and
`+`. -/
theorem urlDecodeGo_plain :
    ∀ (l : List Char) (fuel : Nat), l.length < fuel →
      (∀ c ∈ l, c ≠ '%' ∧ c ≠ '+') → urlDecodeGo fuel l = l
  | [], fuel, hf, _ => by
    cases fuel with
    | zero => omega
    | succ f => rw [urlDecodeGo]
  | c :: l', fuel, hf, h => by
    cases fuel with
    | zero => simp at hf
    | succ f =>
      rw [urlDecodeGo, if_neg (h c (List.mem_cons_self c l')).2,
        if_neg (h c (List.mem_cons_self c l')).1,
        urlDecodeGo_plain l' f (by simp at hf; omega)
          (fun d hd => h d (List.mem_cons_of_mem c hd))]

/-- `encodeURIComponent` output never contains a separator or fragment
character. -/
theorem encodeURIChars_ne_sep (l : List Char) :
    ∀ c ∈ encodeURIChars l, c ≠ '&' ∧ c ≠ '#' ∧ c ≠ '=' ∧ c ≠ '?' ∧
      c ≠ '+' := by
  intro c hc
  rcases encodeURIChars_mem l c hc with hu | rfl | ⟨n, hn, rfl⟩
  · exact ⟨fun h => absurd (h ▸ hu) (by decide),
      fun h => absurd (h ▸ hu) (by decide),
      fun h => absurd (h ▸ hu) (by decide),
      fun h => absurd (h ▸ hu) (by decide),
      fun h => absurd (h ▸ hu) (by decide)⟩
  · decide
  · exact (by decide : ∀ m < 16, hexChar m ≠ '&' ∧ hexChar m ≠ '#' ∧
      hexChar m ≠ '=' ∧ hexChar m ≠ '?' ∧ hexChar m ≠ '+') n hn

/-- A budget-safe character is none of the URL metacharacters. -/
theorem budgetSafeChar_ne (c : Char) (h : budgetSafeChar c = true) :
    c ≠ '&' ∧ c ≠ '#' ∧ c ≠ '=' ∧ c ≠ '?' ∧ c ≠ '+' ∧ c ≠ '%' := by
  have h' : c.isAlphanum = true ∨ c = '.' ∨ c = '-' := by
    simpa [budgetSafeChar] using h
  rcases h' with ha | rfl | rfl
  · have hu := uriUnreserved_of_alphanum c ha
    exact ⟨fun hq => absurd (hq ▸ hu) (by decide),
      fun hq => absurd (hq ▸ hu) (by decide),
      fun hq => absurd (hq ▸ hu) (by decide),
      fun hq => absurd (hq ▸ hu) (by decide),
      fun hq => absurd (hq ▸ hu) (by decide),
      fun hq => absurd (hq ▸ hu) (by decide)⟩
  · decide
  · decide

/-- `splitAmp` never produces the empty group list. -/
theorem splitAmp_ne_nil : ∀ l : List Char, splitAmp l ≠ []
  | [] => by
    rw [splitAmp]
    exact List.cons_ne_nil _ _
  | c :: rest => by
    rw [splitAmp]
    cases hsp : splitAmp rest with
    | nil => exact absurd hsp (splitAmp_ne_nil rest)
    | cons g gs =>
      show (if c = '&' then [] :: g :: gs else (c :: g) :: gs) ≠ []
      by_cases hc : c = '&'
      · rw [if_pos hc]
        exact List.cons_ne_nil _ _
      · rw [if_neg hc]
        exact List.cons_ne_nil _ _

/-- A query without `&` is a single piece. -/
theorem splitAmp_no_amp : ∀ l : List Char, (∀ c ∈ l, c ≠ '&') →
    splitAmp l = [l]
  | [], _ => rfl
  | c :: rest, h => by
    rw [splitAmp, splitAmp_no_amp rest (fun d hd => h d (List.mem_cons_of_mem c hd))]
    show (if c = '&' then [] :: [rest] else (c :: rest) :: []) = [c :: rest]
    rw [if_neg (h c (List.mem_cons_self c rest))]

/-- Splitting at the first `&` when the head piece is `&`-free. -/
theorem splitAmp_append : ∀ (l₁ l₂ : List Char), (∀ c ∈ l₁, c ≠ '&') →
    splitAmp (l₁ ++ '&' :: l₂) = l₁ :: splitAmp l₂
  | [], l₂, _ => by
    rw [List.nil_append, splitAmp]
    cases hsp : splitAmp l₂ with
    | nil => exact absurd hsp (splitAmp_ne_nil l₂)
    | cons g gs =>
      show (if '&' = '&' then [] :: g :: gs else ('&' :: g) :: gs) = [] :: g :: gs
      rw [if_pos rfl]
  | c :: l₁', l₂, h => by
    rw [List.cons_append, splitAmp,
      splitAmp_append l₁' l₂ (fun d hd => h d (List.mem_cons_of_mem c hd))]
    show (if c = '&' then [] :: l₁' :: splitAmp l₂
      else (c :: l₁') :: splitAmp l₂) = (c :: l₁') :: splitAmp l₂
    rw [if_neg (h c (List.mem_cons_self c l₁'))]

/-- Splitting a piece at its first `=` when the key is `=`-free. -/
theorem splitEq_append : ∀ (k v : List Char), (∀ c ∈ k, c ≠ '=') →
    splitEq (k ++ '=' :: v) = (k, v)
  | [], v, _ => by
    rw [List.nil_append, splitEq, if_pos rfl]
  | c :: k', v, h => by
    rw [List.cons_append, splitEq, if_neg (h c (List.mem_cons_self c k')),
      splitEq_append k' v (fun d hd => h d (List.mem_cons_of_mem c hd))]

/-- `dropWhile` runs to the first `?`. -/
theorem dropWhile_until_q : ∀ (l₁ l₂ : List Char), (∀ c ∈ l₁, c ≠ '?') →
    List.dropWhile (fun c => c ≠ '?') (l₁ ++ '?' :: l₂) = '?' :: l₂
  | [], l₂, _ => by
    rw [List.nil_append, List.dropWhile_cons, if_neg (by simp)]
  | c :: l₁', l₂, h => by
    rw [List.cons_append, List.dropWhile_cons,
      if_pos (by simp [h c (List.mem_cons_self c l₁')]),
      dropWhile_until_q l₁' l₂ (fun d hd => h d (List.mem_cons_of_mem c hd))]

/-- `takeWhile` keeps everything when the stop character is absent. -/
theorem takeWhile_no_hash : ∀ l : List Char, (∀ c ∈ l, c ≠ '#') →
    List.takeWhile (fun c => c ≠ '#') l = l
  | [], _ => rfl
  | c :: l', h => by
    rw [List.takeWhile_cons, if_pos (by simp [h c (List.mem_cons_self c l')]),
      takeWhile_no_hash l' (fun d hd => h d (List.mem_cons_of_mem c hd))]

/-- The characters of the `items=`-piece of the query. -/
theorem itemsPiece_chars (items : List Item) :
    ∀ c ∈ "items=".data ++ encodeURIChars (stringifyItems items),
      c ≠ '&' ∧ c ≠ '#' := by
  intro c hc
  rcases List.mem_append.mp hc with hc | hc
  · exact (by decide : ∀ d ∈ "items=".data, d ≠ '&' ∧ d ≠ '#') c hc
  · obtain ⟨h1, h2, _⟩ := encodeURIChars_ne_sep (stringifyItems items) c hc
    exact ⟨h1, h2⟩

/-- Decoding and parsing the `items` parameter value recovers the
list. -/
theorem itemsValue_roundtrip (items : List Item)
    (hitems : ∀ it ∈ items, shareSafeStr it.name ∧ shareSafeStr it.estimatedPrice) :
    urlParamDecode ⟨encodeURIChars (stringifyItems items)⟩ =
        ⟨stringifyItems items⟩ ∧
      decodeURIComponentQ ⟨stringifyItems items⟩ =
        some ⟨stringifyItems items⟩ ∧
      parseItemsArray (⟨stringifyItems items⟩ : String).data = some items := by
  have hJ := stringifyItems_chars items hitems
  refine ⟨?_, ?_, ?_⟩
  · rw [urlParamDecode]
    show (⟨urlDecodeGo ((encodeURIChars (stringifyItems items)).length + 1)
      (encodeURIChars (stringifyItems items))⟩ : String) = ⟨stringifyItems items⟩
    rw [urlDecodeGo_encode (stringifyItems items) _ (Nat.lt_succ_self _) hJ]
  · rw [decodeURIComponentQ]
    show (decodeURIGo ((stringifyItems items).length + 1)
      (stringifyItems items)).map (fun l => (⟨l⟩ : String)) = _
    rw [decodeURIGo_no_percent (stringifyItems items) _ (Nat.lt_succ_self _)
      (fun c hc => jsonOutChar_ne_percent c (hJ c hc))]
    rfl
  · exact parseItemsArray_safe items hitems

/-- C1 counterexample: a name containing `%` does not survive the share
round trip — the decoder's extra `decodeURIComponent` (on top of the
percent-decoding `URLSearchParams.get` already performed) throws, the
error is caught, and the default empty list is kept. -/
theorem share_roundtrip_counterexample :
    loadFromUrl (shareList "https://host/app" [⟨"100% juice", false, ""⟩] "") ≠
      ([⟨"100% juice", false, ""⟩], "") := by
  decide

/-- C1 amended: the share round trip does recover the exact item list
and budget string provided the item names and prices consist of
alphanumerics, spaces, dots and hyphens (in particular no `%`, which the
counterexample shows breaking the round trip), the budget consists of
alphanumerics, dots and hyphens, and the page base URL contains no `?`
or `#`. -/
theorem share_roundtrip_amended (base : String) (items : List Item)
    (budget : String)
    (hbase : ∀ c ∈ base.data, c ≠ '?' ∧ c ≠ '#')
    (hitems : ∀ it ∈ items, shareSafeStr it.name ∧ shareSafeStr it.estimatedPrice)
    (hbudget : ∀ c ∈ budget.data, budgetSafeChar c = true) :
    loadFromUrl (shareList base items budget) = (items, budget) := by
  have hJ := stringifyItems_chars items hitems
  obtain ⟨hkeyd, hvald, hparsed⟩ := itemsValue_roundtrip items hitems
  by_cases hbe : budget = ""
  · subst hbe
    have hurl : (shareList base items "").data =
        base.data ++ '?' :: ("items".data ++ '=' ::
          encodeURIChars (stringifyItems items)) := by
      rw [shareList, if_neg (by simp)]
      simp [encodeURIComponent, String.data_append, List.append_assoc]
    have hsearch : locationSearch (shareList base items "") =
        "items".data ++ '=' :: encodeURIChars (stringifyItems items) := by
      rw [locationSearch, hurl,
        dropWhile_until_q base.data _ (fun c hc => (hbase c hc).1),
        List.takeWhile_cons, if_pos (by simp),
        takeWhile_no_hash _ (by
          intro c hc
          rw [show "items".data ++ '=' :: encodeURIChars (stringifyItems items) =
            "items=".data ++ encodeURIChars (stringifyItems items) from by
              simp] at hc
          exact (itemsPiece_chars items c hc).2)]
      rfl
    have hparams : parseParams (locationSearch (shareList base items "")) =
        [("items", ⟨stringifyItems items⟩)] := by
      rw [parseParams, hsearch]
      rw [show "items".data ++ '=' :: encodeURIChars (stringifyItems items) =
        "items=".data ++ encodeURIChars (stringifyItems items) from by simp]
      rw [splitAmp_no_amp _ (fun c hc => (itemsPiece_chars items c hc).1)]
      rw [List.filter_cons, List.filter_nil,
        if_pos (by
          show decide ("items=".data ++ encodeURIChars (stringifyItems items) ≠ []) = true
          simp)]
      rw [List.map_cons, List.map_nil]
      rw [show "items=".data ++ encodeURIChars (stringifyItems items) =
        "items".data ++ '=' :: encodeURIChars (stringifyItems items) from by simp]
      rw [splitEq_append _ _ (by decide)]
      rw [show urlParamDecode ⟨"items".data⟩ = "items" from by decide, hkeyd]
    have hfinditems : List.find? (fun p => p.1 == "items")
        [(("items" : String), (⟨stringifyItems items⟩ : String))] =
        some ("items", ⟨stringifyItems items⟩) := by
      rw [List.find?]
      simp
    have hfindbudget : List.find? (fun p => p.1 == "budget")
        [(("items" : String), (⟨stringifyItems items⟩ : String))] = none := by
      rw [List.find?_eq_none]
      intro p hp
      rw [List.mem_singleton] at hp
      subst hp
      show ¬(("items" : String) == "budget") = true
      decide
    rw [loadFromUrl]
    simp only [hparams, paramsGet, hfinditems, hfindbudget]
    show ((if (⟨stringifyItems items⟩ : String) ≠ "" then
        (match decodeURIComponentQ (⟨stringifyItems items⟩ : String) with
          | some decoded =>
            (match parseItemsArray decoded.data with
              | some its => its
              | none => [])
          | none => [])
      else []), ("" : String)) = (items, "")
    rw [if_pos (by
      intro hcon
      exact absurd (congrArg String.data hcon) (by simp [stringifyItems]))]
    rw [hvald]
    show ((match parseItemsArray (⟨stringifyItems items⟩ : String).data with
      | some its => its
      | none => []), ("" : String)) = (items, "")
    rw [hparsed]
  · have hbchars := fun c hc => budgetSafeChar_ne c (hbudget c hc)
    have hurl : (shareList base items budget).data =
        base.data ++ '?' :: (("items".data ++ '=' ::
          encodeURIChars (stringifyItems items)) ++ '&' ::
            ("budget".data ++ '=' :: budget.data)) := by
      rw [shareList, if_pos hbe]
      simp [encodeURIComponent, String.data_append, List.append_assoc]
    have hsearch : locationSearch (shareList base items budget) =
        ("items".data ++ '=' :: encodeURIChars (stringifyItems items)) ++ '&' ::
          ("budget".data ++ '=' :: budget.data) := by
      rw [locationSearch, hurl,
        dropWhile_until_q base.data _ (fun c hc => (hbase c hc).1),
        List.takeWhile_cons, if_pos (by simp),
        takeWhile_no_hash _ (by
          intro c hc
          rcases List.mem_append.mp hc with hc | hc
          · rw [show "items".data ++ '=' :: encodeURIChars (stringifyItems items) =
              "items=".data ++ encodeURIChars (stringifyItems items) from by
                simp] at hc
            exact (itemsPiece_chars items c hc).2
          · rcases List.mem_cons.mp hc with rfl | hc
            · decide
            rcases List.mem_append.mp hc with hc | hc
            · exact (by decide : ∀ d ∈ "budget".data, d ≠ '#') c hc
            rcases List.mem_cons.mp hc with rfl | hc
            · decide
            · exact (hbchars c hc).2.1)]
      rfl
    have hparams : parseParams (locationSearch (shareList base items budget)) =
        [("items", ⟨stringifyItems items⟩), ("budget", budget)] := by
      rw [parseParams, hsearch]
      rw [splitAmp_append _ _ (by
        intro c hc
        rw [show "items".data ++ '=' :: encodeURIChars (stringifyItems items) =
          "items=".data ++ encodeURIChars (stringifyItems items) from by
            simp] at hc
        exact (itemsPiece_chars items c hc).1)]
      rw [splitAmp_no_amp _ (by
        intro c hc
        rcases List.mem_append.mp hc with hc | hc
        · exact (by decide : ∀ d ∈ "budget".data, d ≠ '&') c hc
        rcases List.mem_cons.mp hc with rfl | hc
        · decide
        · exact (hbchars c hc).1)]
      rw [List.filter_cons, if_pos (by
        show decide ("items".data ++ '=' ::
          encodeURIChars (stringifyItems items) ≠ []) = true
        simp)]
      rw [List.filter_cons, List.filter_nil, if_pos (by
        show decide ("budget".data ++ '=' :: budget.data ≠ []) = true
        simp)]
      rw [List.map_cons, List.map_cons, List.map_nil]
      rw [show "items".data ++ '=' :: encodeURIChars (stringifyItems items) =
        "items".data ++ '=' :: encodeURIChars (stringifyItems items) from rfl,
        splitEq_append "items".data _ (by decide),
        splitEq_append "budget".data _ (by decide)]
      rw [show urlParamDecode ⟨"items".data⟩ = "items" from by decide,
        show urlParamDecode ⟨"budget".data⟩ = "budget" from by decide, hkeyd]
      rw [show (⟨budget.data⟩ : String) = budget from rfl]
      rw [urlParamDecode]
      rw [show (budget : String).data.length = budget.data.length from rfl,
        urlDecodeGo_plain budget.data _ (Nat.lt_succ_self _)
          (fun c hc => ⟨(hbchars c hc).2.2.2.2.2, (hbchars c hc).2.2.2.2.1⟩)]
    have hfinditems : List.find? (fun p => p.1 == "items")
        [(("items" : String), (⟨stringifyItems items⟩ : String)),
          (("budget" : String), budget)] =
        some ("items", ⟨stringifyItems items⟩) := by
      rw [List.find?]
      simp
    have hfindbudget : List.find? (fun p => p.1 == "budget")
        [(("items" : String), (⟨stringifyItems items⟩ : String)),
          (("budget" : String), budget)] = some ("budget", budget) := by
      rw [List.find?]
      show (match (("items" : String) == "budget") with
        | true => some (("items" : String), (⟨stringifyItems items⟩ : String))
        | false => List.find? (fun p => p.1 == "budget")
            [(("budget" : String), budget)]) = some ("budget", budget)
      rw [show (("items" : String) == "budget") = false from by decide,
        List.find?]
      simp
    rw [loadFromUrl]
    simp only [hparams, paramsGet, hfinditems, hfindbudget]
    show ((if (⟨stringifyItems items⟩ : String) ≠ "" then
        (match decodeURIComponentQ (⟨stringifyItems items⟩ : String) with
          | some decoded =>
            (match parseItemsArray decoded.data with
              | some its => its
              | none => [])
          | none => [])
      else []), (if budget ≠ "" then budget else "")) = (items, budget)
    rw [if_pos (by
      intro hcon
      exact absurd (congrArg String.data hcon) (by simp [stringifyItems]))]
    rw [hvald]
    show ((match parseItemsArray (⟨stringifyItems items⟩ : String).data with
      | some its => its
      | none => []), (if budget ≠ "" then budget else "")) = (items, budget)
    rw [hparsed, if_pos hbe]

/-- Witness for C1 amended: a two-item list (safe names and prices, one
pantry item) and budget `30` survive the share round trip exactly. -/
theorem share_roundtrip_amended_witness :
    loadFromUrl (shareList "https://host/app"
      [⟨"Organic Eggs", false, "4.25"⟩, ⟨"milk", true, ""⟩] "30") =
      ([⟨"Organic Eggs", false, "4.25"⟩, ⟨"milk", true, ""⟩], "30") := by
  apply share_roundtrip_amended
  · decide
  · intro it hit
    rcases List.mem_cons.mp hit with rfl | hit
    · exact ⟨shareSafeStr_of_all _ (by decide), shareSafeStr_of_all _ (by decide)⟩
    rcases List.mem_cons.mp hit with rfl | hit
    · exact ⟨shareSafeStr_of_all _ (by decide), shareSafeStr_of_all _ (by decide)⟩
    · exact absurd hit (List.not_mem_nil it)
  · decide

/-! ## C8 — retailer search links -/

/-- C8: each retailer link is built deterministically from the item
name: it contains the percent-encoded name and that retailer's
ascending-price sort parameter. -/
theorem retailer_links_spec (itemName : String) (_h : itemName ≠ "") :
    (containsSub (encodeURIComponent itemName) (generateAmazonUrl itemName) ∧
      containsSub "s=price-asc-rank" (generateAmazonUrl itemName)) ∧
    (containsSub (encodeURIComponent itemName) (generateWalmartUrl itemName) ∧
      containsSub "sort=price_low" (generateWalmartUrl itemName)) ∧
    (containsSub (encodeURIComponent itemName) (generateTargetUrl itemName) ∧
      containsSub "sortBy=PriceLow" (generateTargetUrl itemName)) := by
  refine ⟨⟨?_, ?_⟩, ⟨?_, ?_⟩, ⟨?_, ?_⟩⟩
  · exact ⟨"https://www.amazon.com/s?k=".data, "&s=price-asc-rank".data, by
      simp [generateAmazonUrl, String.data_append]⟩
  · exact ⟨"https://www.amazon.com/s?k=".data ++ (encodeURIComponent itemName).data
      ++ "&".data, [], by simp [generateAmazonUrl, String.data_append]⟩
  · exact ⟨"https://www.walmart.com/search?q=".data, "&sort=price_low".data, by
      simp [generateWalmartUrl, String.data_append]⟩
  · exact ⟨"https://www.walmart.com/search?q=".data ++ (encodeURIComponent itemName).data
      ++ "&".data, [], by simp [generateWalmartUrl, String.data_append]⟩
  · exact ⟨"https://www.target.com/s?searchTerm=".data, "&sortBy=PriceLow".data, by
      simp [generateTargetUrl, String.data_append]⟩
  · exact ⟨"https://www.target.com/s?searchTerm=".data ++ (encodeURIComponent itemName).data
      ++ "&".data, [], by simp [generateTargetUrl, String.data_append]⟩

/-- Witness for C8: for `"organic eggs"` each of the three URLs contains
the percent-encoding `organic%20eggs` and the retailer's price-ascending
sort marker. -/
theorem retailer_links_spec_witness :
    containsSub "organic%20eggs" (generateAmazonUrl "organic eggs") ∧
    containsSub "s=price-asc-rank" (generateAmazonUrl "organic eggs") ∧
    containsSub "organic%20eggs" (generateWalmartUrl "organic eggs") ∧
    containsSub "sort=price_low" (generateWalmartUrl "organic eggs") ∧
    containsSub "organic%20eggs" (generateTargetUrl "organic eggs") ∧
    containsSub "sortBy=PriceLow" (generateTargetUrl "organic eggs") := by
  have hs := retailer_links_spec "organic eggs" (by decide)
  have he : encodeURIComponent "organic eggs" = "organic%20eggs" := by decide
  rw [he] at hs
  exact ⟨hs.1.1, hs.1.2, hs.2.1.1, hs.2.1.2, hs.2.2.1, hs.2.2.2⟩

/-! ## C9 — voice transcript normalization -/

/-- Map-then-filter of the fragments is the same as keeping the
non-empty trims. -/
theorem map_trim_filter_eq_filterMap (l : List String) :
    ((l.map jsTrim).filter (fun s => s ≠ "")) =
      l.filterMap (fun frag =>
        if jsTrim frag = "" then none else some (jsTrim frag)) := by
  induction l with
  | nil => rfl
  | cons x xs ih =>
    rw [List.map_cons, List.filterMap_cons]
    by_cases hx : jsTrim x = ""
    · rw [List.filter_cons_of_neg (by simp [hx]), if_pos hx, ih]
    · rw [List.filter_cons_of_pos (by simp [hx]), if_neg hx, ih]

/-- C9: the voice pipeline lower-cases the transcript, turns the
standalone words `and` and `comma` into commas, splits on commas, keeps
the non-empty trimmed fragments in order — and on the transcript
`"milk and eggs, bread"` yields exactly `["milk", "eggs", "bread"]`. -/
theorem voice_normalization_spec :
    (∀ transcript : String, voiceItems transcript =
      (jsSplitComma (replaceWord "comma" (replaceWord "and"
        (jsToLower transcript)))).filterMap (fun frag =>
          if jsTrim frag = "" then none else some (jsTrim frag))) ∧
    voiceItems "milk and eggs, bread" = ["milk", "eggs", "bread"] := by
  constructor
  · intro transcript
    rw [voiceItems, map_trim_filter_eq_filterMap]
  · decide

/-! ## C10 — stale indices are safe -/

/-- `removeItem`'s filter leaves the list unchanged when the removal
index lies outside the positions of the traversed sublist. -/
theorem filterIdx_out_of_range (index : Nat) :
    ∀ (l : List Item) (n : Nat), index < n ∨ l.length + n ≤ index →
      filterIdx (fun _ i => i ≠ index) l n = l
  | [], n, _ => rfl
  | x :: xs, n, h => by
    have hne : n ≠ index := by
      rcases h with h | h
      · omega
      · simp only [List.length_cons] at h
        omega
    rw [filterIdx, if_pos (by simpa using hne)]
    rw [filterIdx_out_of_range index xs (n + 1) (by
      rcases h with h | h
      · exact Or.inl (Nat.lt_succ_of_lt h)
      · simp only [List.length_cons] at h
        omega)]

/-- `removeItem`'s filter deletes exactly the element at offset `k` from
the traversal start when it is in range. -/
theorem filterIdx_in_range :
    ∀ (l : List Item) (n k : Nat), k < l.length →
      filterIdx (fun _ i => i ≠ (n + k)) l n = l.take k ++ l.drop (k + 1)
  | [], _, k, hk => absurd hk (by simp)
  | x :: xs, n, 0, _ => by
    rw [filterIdx, if_neg (by simp)]
    simpa using filterIdx_out_of_range (n + 0) xs (n + 1) (Or.inl (by omega))
  | x :: xs, n, k + 1, hk => by
    rw [filterIdx, if_pos (by simp)]
    have := filterIdx_in_range xs (n + 1) k (by
      simp only [List.length_cons] at hk
      omega)
    rw [show n + 1 + k = n + (k + 1) from by omega] at this
    rw [this]
    rfl

/-- A positional map that only rewrites at `index` is the identity when
`index` lies outside the traversed positions. -/
theorem mapIdx_out_of_range (index : Nat) (g : Item → Item) :
    ∀ (l : List Item) (n : Nat), index < n ∨ l.length + n ≤ index →
      mapIdx (fun it i => if i = index then g it else it) l n = l
  | [], n, _ => rfl
  | x :: xs, n, h => by
    have hne : n ≠ index := by
      rcases h with h | h
      · omega
      · simp only [List.length_cons] at h
        omega
    rw [mapIdx, if_neg hne]
    rw [mapIdx_out_of_range index g xs (n + 1) (by
      rcases h with h | h
      · exact Or.inl (Nat.lt_succ_of_lt h)
      · simp only [List.length_cons] at h
        omega)]

/-- C10: for an index at or beyond the list length, `removeItem`,
`togglePantry` and `updatePrice` leave the list entirely unchanged; for
an in-range index, `removeItem` deletes exactly the item at that
position, keeping all the others in order. -/
theorem index_ops_spec (items : List Item) (index : Nat) (price : String) :
    (items.length ≤ index →
      removeItem items index = items ∧ togglePantry items index = items ∧
      updatePrice items index price = items) ∧
    (index < items.length →
      removeItem items index = items.take index ++ items.drop (index + 1)) := by
  constructor
  · intro h
    refine ⟨?_, ?_, ?_⟩
    · exact filterIdx_out_of_range index items 0 (Or.inr (by omega))
    · exact mapIdx_out_of_range index _ items 0 (Or.inr (by omega))
    · exact mapIdx_out_of_range index _ items 0 (Or.inr (by omega))
  · intro h
    have := filterIdx_in_range items 0 index h
    rw [Nat.zero_add] at this
    exact this

/-- Witness for C10: index `5` is stale for a two-item list and all
three operations leave it unchanged; index `0` removes exactly the first
item. -/
theorem index_ops_spec_witness :
    removeItem [⟨"a", false, ""⟩, ⟨"b", true, "2"⟩] 5 =
      [⟨"a", false, ""⟩, ⟨"b", true, "2"⟩] ∧
    togglePantry [⟨"a", false, ""⟩, ⟨"b", true, "2"⟩] 5 =
      [⟨"a", false, ""⟩, ⟨"b", true, "2"⟩] ∧
    updatePrice [⟨"a", false, ""⟩, ⟨"b", true, "2"⟩] 5 "9" =
      [⟨"a", false, ""⟩, ⟨"b", true, "2"⟩] ∧
    removeItem [⟨"a", false, ""⟩, ⟨"b", true, "2"⟩] 0 = [⟨"b", true, "2"⟩] := by
  have h5 := (index_ops_spec [⟨"a", false, ""⟩, ⟨"b", true, "2"⟩] 5 "9").1
    (by decide)
  have h0 := (index_ops_spec [⟨"a", false, ""⟩, ⟨"b", true, "2"⟩] 0 "9").2
    (by decide)
  exact ⟨h5.1, h5.2.1, h5.2.2, h0⟩

end Grocery
